import Mathlib

/-!
# Verification of the NetworkPacketScheduler discrete-event simulators

Shallow embedding of `src/fcfs_simulator.cpp` and `src/wfq_simulator.cpp`.

* `double` arithmetic is modelled by exact rationals, C++ `int`/`long`/`size_t`
  by `Int`/`Nat`.
* The single `std::default_random_engine` is abstracted as an oracle stream:
  the n-th processed arrival event draws the pair
  `(interarrival delay, packet size)` at oracle index n, mirroring the two
  sequential draws (`arrivalDist(generator)` then `sizeDist(generator)`)
  performed by each arrival handler.
* The two `std::priority_queue`s (the event queue keyed by event time and the
  WFQ buffer keyed by virtual finish time) are modelled as lists kept sorted
  by their key, so the heap `top` is the list head.
* States carry, besides the fields of the C++ classes, write-only observation
  fields (`lost`, `depLog`, `dropLog`, `genLog`, `vLog`) recording what the
  run did; no simulator code reads them, so executable behaviour is exactly
  that of the source.
* `wfq_simulator.cpp` calls `packetBuffer.top()` on a possibly empty
  `std::priority_queue` (reachable when `bufferSize = 0`), which is undefined
  behaviour; the embedding makes the WFQ arrival handler return `Option`,
  with `none` exactly on that path.
-/

/- Rational arithmetic is `@[irreducible]` in Batteries; re-expose it so that
concrete runs of the simulators evaluate inside `decide`. -/
unseal Rat.add Rat.sub Rat.mul Rat.inv

/-- Packet (fcfs_simulator.cpp:19-24, wfq_simulator.cpp:21-33).  The WFQ-only
fields `weight` and `virtualFinishTime` are kept at 0 by the FCFS machine. -/
structure Packet where
  id : Nat
  sourceID : Nat
  size : Int
  weight : Rat
  arrivalTime : Rat
  virtualFinishTime : Rat
deriving DecidableEq, Repr

/-- Simulation event (fcfs_simulator.cpp:27-45, wfq_simulator.cpp:36-51). -/
inductive Event where
  | arrival (time : Rat) (sourceID : Nat)
  | departure (time : Rat) (packet : Packet)
deriving DecidableEq, Repr

def Event.time : Event → Rat
  | .arrival t _ => t
  | .departure t _ => t

/-- Traffic source configuration (fcfs_simulator.cpp:48-63,
wfq_simulator.cpp:54-71).  The mutable WFQ field `lastFinishTime` is stored
in the simulator state (`WFQ.State.lastF`) instead, since `sources` is
otherwise immutable during a run.  `minSize`/`maxSize` only parameterize the
size distribution, which the oracle abstracts, so they are carried as parsed
numbers and never read by the machines. -/
structure Source where
  id : Nat
  packetRate : Rat
  minSize : Rat
  maxSize : Rat
  weight : Rat
  startTime : Rat
  endTime : Rat
deriving DecidableEq, Repr

def dfltSource : Source := ⟨0, 0, 0, 0, 0, 0, 0⟩

/-- Per-source counters (fcfs_simulator.cpp:66-72, wfq_simulator.cpp:74-80). -/
structure SourceStats where
  packetsGenerated : Nat
  packetsTransmitted : Nat
  packetsDropped : Nat
  bytesTransmitted : Rat
  totalDelay : Rat
deriving DecidableEq, Repr

def SourceStats.zero : SourceStats := ⟨0, 0, 0, 0, 0⟩

/-- The configuration consumed by either simulator (the private fields read
by `loadConfig`, fcfs_simulator.cpp:77-80, wfq_simulator.cpp:85-88). -/
structure Config where
  numSources : Nat
  simulationTime : Rat
  linkCapacity : Rat
  bufferSize : Nat
  sources : List Source
deriving DecidableEq, Repr

/-- Abstraction of the RNG: arrival n draws `(interarrival delay, size)`. -/
abbrev Oracle := Nat → Rat × Int

/-- Functional model of pushing into a `std::priority_queue` kept as a list
sorted ascending by `key` (smallest = head = `top()`). -/
def insertSorted (key : α → Rat) (a : α) : List α → List α
  | [] => [a]
  | b :: l => if key a ≤ key b then a :: b :: l else b :: insertSorted key a l

/-- `scheduleEvent` (fcfs_simulator.cpp:92-96, wfq_simulator.cpp:106-110):
events past the horizon are silently discarded. -/
def scheduleEvent (T : Rat) (e : Event) (q : List Event) : List Event :=
  if e.time ≤ T then insertSorted Event.time e q else q

/-- `stats[i].packetsGenerated++`. -/
def bumpGen (st : Nat → SourceStats) (i : Nat) : Nat → SourceStats :=
  Function.update st i
    { st i with packetsGenerated := (st i).packetsGenerated + 1 }

/-- `stats[i].packetsDropped++`. -/
def bumpDrop (st : Nat → SourceStats) (i : Nat) : Nat → SourceStats :=
  Function.update st i
    { st i with packetsDropped := (st i).packetsDropped + 1 }

/-- The departure-handler statistics update (fcfs_simulator.cpp:138-140,
wfq_simulator.cpp:173-175). -/
def addTrans (st : Nat → SourceStats) (i : Nat) (size : Int) (delay : Rat) :
    Nat → SourceStats :=
  Function.update st i
    { st i with
      packetsTransmitted := (st i).packetsTransmitted + 1
      bytesTransmitted := (st i).bytesTransmitted + (size : Rat)
      totalDelay := (st i).totalDelay + delay }

namespace FCFS

/-- State of `FCFSSimulator` (fcfs_simulator.cpp:75-90).  `lost`, `depLog`
and `dropLog` are write-only observation fields. -/
structure State where
  currentTime : Rat
  linkBusy : Bool
  nextPacketId : Nat
  buffer : List Packet
  eventQueue : List Event
  stats : Nat → SourceStats
  draws : Nat
  lost : List Packet
  depLog : List (Rat × Nat)
  dropLog : List Packet

/-- `startNextTransmission` (fcfs_simulator.cpp:98-107).  The branch on the
departure time is `scheduleEvent`'s horizon filter; when the event is
discarded the dispatched packet is recorded in `lost`. -/
def startNextTransmission (cfg : Config) (s : State) : State :=
  if s.linkBusy then s else
  match s.buffer with
  | [] => s
  | p :: rest =>
    if s.currentTime + (p.size : Rat) / cfg.linkCapacity ≤ cfg.simulationTime then
      { s with linkBusy := true, buffer := rest,
               eventQueue := insertSorted Event.time
                 (.departure (s.currentTime + (p.size : Rat) / cfg.linkCapacity) p)
                 s.eventQueue }
    else
      { s with linkBusy := true, buffer := rest, lost := s.lost ++ [p] }

/-- `handleArrivalEvent` (fcfs_simulator.cpp:109-131): schedule the next
arrival of the source, generate a packet, tail-drop admission, then try
to transmit. -/
def handleArrivalEvent (cfg : Config) (ora : Oracle) (srcID : Nat) (s : State) : State :=
  let src := cfg.sources.getD srcID dfltSource
  let del := (ora s.draws).1
  let L := (ora s.draws).2
  let nextArrivalTime := s.currentTime + del
  let q := if nextArrivalTime < src.endTime then
             scheduleEvent cfg.simulationTime (.arrival nextArrivalTime srcID) s.eventQueue
           else s.eventQueue
  let p : Packet := ⟨s.nextPacketId, srcID, L, 0, s.currentTime, 0⟩
  let st := bumpGen s.stats srcID
  let s1 :=
    if s.buffer.length < cfg.bufferSize then
      { s with eventQueue := q, nextPacketId := s.nextPacketId + 1, draws := s.draws + 1,
               stats := st, buffer := s.buffer ++ [p] }
    else
      { s with eventQueue := q, nextPacketId := s.nextPacketId + 1, draws := s.draws + 1,
               stats := bumpDrop st srcID, dropLog := s.dropLog ++ [p] }
  startNextTransmission cfg s1

/-- `handleDepartureEvent` (fcfs_simulator.cpp:133-143). -/
def handleDepartureEvent (cfg : Config) (p : Packet) (s : State) : State :=
  let s1 := { s with linkBusy := false,
                     stats := addTrans s.stats p.sourceID p.size (s.currentTime - p.arrivalTime),
                     depLog := s.depLog ++ [(s.currentTime, p.id)] }
  startNextTransmission cfg s1

/-- The main loop of `run` (fcfs_simulator.cpp:184-196), as a fuel-indexed
step function: pop the earliest event, advance the clock, break past the
horizon, otherwise dispatch. -/
def runFuel (cfg : Config) (ora : Oracle) : Nat → State → State
  | 0, s => s
  | n + 1, s =>
    match s.eventQueue with
    | [] => s
    | e :: q =>
      let s1 := { s with currentTime := e.time, eventQueue := q }
      if cfg.simulationTime < e.time then s1
      else
        match e with
        | .arrival _ srcID => runFuel cfg ora n (handleArrivalEvent cfg ora srcID s1)
        | .departure _ p => runFuel cfg ora n (handleDepartureEvent cfg p s1)

/-- Initial state plus the event-queue priming of `run`
(fcfs_simulator.cpp:178-182). -/
def init (cfg : Config) : State :=
  { currentTime := 0, linkBusy := false, nextPacketId := 1, buffer := [],
    eventQueue := cfg.sources.foldl
      (fun q src => scheduleEvent cfg.simulationTime (.arrival src.startTime src.id) q) [],
    stats := fun _ => SourceStats.zero, draws := 0, lost := [], depLog := [], dropLog := [] }

end FCFS

namespace WFQ

/-- State of `WFQSimulator` (wfq_simulator.cpp:83-104).  `lastF i` is
`sources[i].lastFinishTime`; `lost`, `depLog`, `dropLog`, `genLog`, `vLog`
are write-only observation fields. -/
structure State where
  currentTime : Rat
  systemVirtualTime : Rat
  linkBusy : Bool
  nextPacketId : Nat
  buffer : List Packet
  eventQueue : List Event
  stats : Nat → SourceStats
  lastF : Nat → Rat
  draws : Nat
  lost : List Packet
  depLog : List (Rat × Nat)
  dropLog : List Packet
  genLog : List Packet
  vLog : List Rat

/-- `startNextTransmission` (wfq_simulator.cpp:112-125): dispatch the
minimum-VFT packet, pin `systemVirtualTime` to its virtual start time,
schedule its departure (discarded past the horizon, recorded in `lost`).
Each sampled virtual time is appended to `vLog`. -/
def startNextTransmission (cfg : Config) (s : State) : State :=
  if s.linkBusy then s else
  match s.buffer with
  | [] => s
  | p :: rest =>
    if s.currentTime + (p.size : Rat) / cfg.linkCapacity ≤ cfg.simulationTime then
      { s with linkBusy := true, buffer := rest,
               systemVirtualTime := p.virtualFinishTime - (p.size : Rat) / p.weight,
               vLog := s.vLog ++ [p.virtualFinishTime - (p.size : Rat) / p.weight],
               eventQueue := insertSorted Event.time
                 (.departure (s.currentTime + (p.size : Rat) / cfg.linkCapacity) p)
                 s.eventQueue }
    else
      { s with linkBusy := true, buffer := rest,
               systemVirtualTime := p.virtualFinishTime - (p.size : Rat) / p.weight,
               vLog := s.vLog ++ [p.virtualFinishTime - (p.size : Rat) / p.weight],
               lost := s.lost ++ [p] }

/-- Buffer-management step of `handleArrivalEvent` (wfq_simulator.cpp:152-162):
insert when below capacity, else pop the buffered minimum-VFT packet
(`top()` of an *empty* `std::priority_queue` — only reachable when
`bufferSize = 0` — is undefined behaviour, modelled as `none`), record the
drop against the popped packet's source, then insert the new packet. -/
def admitPacket (B : Nat) (p : Packet) (buffer : List Packet)
    (st : Nat → SourceStats) (dl : List Packet) :
    Option (List Packet × (Nat → SourceStats) × List Packet) :=
  if buffer.length < B then
    some (insertSorted Packet.virtualFinishTime p buffer, st, dl)
  else
    match buffer with
    | [] => none
    | d :: rest =>
      some (insertSorted Packet.virtualFinishTime p rest, bumpDrop st d.sourceID, dl ++ [d])

/-- `handleArrivalEvent` (wfq_simulator.cpp:127-166): schedule next arrival,
generate the packet with `S = max(systemVirtualTime, lastFinishTime)` and
`F = S + size/weight`, update `lastFinishTime`, admit (possibly dropping
the buffered minimum), then try to transmit. -/
def handleArrivalEvent (cfg : Config) (ora : Oracle) (srcID : Nat) (s : State) :
    Option State :=
  let src := cfg.sources.getD srcID dfltSource
  let del := (ora s.draws).1
  let L := (ora s.draws).2
  let nextArrivalTime := s.currentTime + del
  let q := if nextArrivalTime < src.endTime then
             scheduleEvent cfg.simulationTime (.arrival nextArrivalTime srcID) s.eventQueue
           else s.eventQueue
  let vStart := max s.systemVirtualTime (s.lastF srcID)
  let F := vStart + (L : Rat) / src.weight
  let p : Packet := ⟨s.nextPacketId, srcID, L, src.weight, s.currentTime, F⟩
  match admitPacket cfg.bufferSize p s.buffer (bumpGen s.stats srcID) s.dropLog with
  | none => none
  | some (buf, st, dl) =>
    some (startNextTransmission cfg
      { s with eventQueue := q, nextPacketId := s.nextPacketId + 1, draws := s.draws + 1,
               lastF := Function.update s.lastF srcID F,
               stats := st, buffer := buf, dropLog := dl, genLog := s.genLog ++ [p] })

/-- `handleDepartureEvent` (wfq_simulator.cpp:168-178). -/
def handleDepartureEvent (cfg : Config) (p : Packet) (s : State) : State :=
  let s1 := { s with linkBusy := false,
                     stats := addTrans s.stats p.sourceID p.size (s.currentTime - p.arrivalTime),
                     depLog := s.depLog ++ [(s.currentTime, p.id)] }
  startNextTransmission cfg s1

/-- The main loop of `run` (wfq_simulator.cpp:218-230), fuel-indexed; `none`
propagates the undefined behaviour of the arrival handler. -/
def runFuel (cfg : Config) (ora : Oracle) : Nat → State → Option State
  | 0, s => some s
  | n + 1, s =>
    match s.eventQueue with
    | [] => some s
    | e :: q =>
      let s1 := { s with currentTime := e.time, eventQueue := q }
      if cfg.simulationTime < e.time then some s1
      else
        match e with
        | .arrival _ srcID =>
          match handleArrivalEvent cfg ora srcID s1 with
          | none => none
          | some s2 => runFuel cfg ora n s2
        | .departure _ p => runFuel cfg ora n (handleDepartureEvent cfg p s1)

/-- Initial state plus the event-queue priming of `run`
(wfq_simulator.cpp:213-216). -/
def init (cfg : Config) : State :=
  { currentTime := 0, systemVirtualTime := 0, linkBusy := false, nextPacketId := 1,
    buffer := [],
    eventQueue := cfg.sources.foldl
      (fun q src => scheduleEvent cfg.simulationTime (.arrival src.startTime src.id) q) [],
    stats := fun _ => SourceStats.zero, lastF := fun _ => 0, draws := 0,
    lost := [], depLog := [], dropLog := [], genLog := [], vLog := [] }

end WFQ

/-! ## Generic lemmas about the sorted-list priority queues -/

theorem insertSorted_perm (key : α → Rat) (a : α) (l : List α) :
    List.Perm (insertSorted key a l) (a :: l) := by
  induction l with
  | nil => simp [insertSorted]
  | cons b t ih =>
    unfold insertSorted
    split
    · exact .refl _
    · exact (ih.cons b).trans (List.Perm.swap a b t)

theorem length_insertSorted (key : α → Rat) (a : α) (l : List α) :
    (insertSorted key a l).length = l.length + 1 :=
  (insertSorted_perm key a l).length_eq

theorem mem_insertSorted {key : α → Rat} {a b : α} {l : List α} :
    b ∈ insertSorted key a l ↔ b = a ∨ b ∈ l := by
  rw [(insertSorted_perm key a l).mem_iff]
  simp

theorem sorted_insertSorted (key : α → Rat) (a : α) {l : List α}
    (h : l.Pairwise fun x y => key x ≤ key y) :
    (insertSorted key a l).Pairwise fun x y => key x ≤ key y := by
  induction l with
  | nil => simp [insertSorted]
  | cons b t ih =>
    rcases List.pairwise_cons.mp h with ⟨hb, ht⟩
    unfold insertSorted
    split
    next hab =>
      refine List.pairwise_cons.mpr ⟨?_, h⟩
      intro y hy
      rcases List.mem_cons.mp hy with rfl | hy
      · exact hab
      · exact le_trans hab (hb y hy)
    next hab =>
      refine List.pairwise_cons.mpr ⟨?_, ih ht⟩
      intro y hy
      rcases mem_insertSorted.mp hy with rfl | hy
      · exact le_of_lt (lt_of_not_le hab)
      · exact hb y hy

/-! ## Counting helpers for the conservation invariant -/

/-- Number of packets of source `i` in a list. -/
def nSrc (i : Nat) : List Packet → Nat
  | [] => 0
  | p :: l => (if p.sourceID = i then 1 else 0) + nSrc i l

theorem nSrc_append (i : Nat) (l₁ l₂ : List Packet) :
    nSrc i (l₁ ++ l₂) = nSrc i l₁ + nSrc i l₂ := by
  induction l₁ with
  | nil => simp [nSrc]
  | cons p l ih => simp [nSrc, ih]; omega

theorem nSrc_perm {l₁ l₂ : List Packet} (h : List.Perm l₁ l₂) (i : Nat) :
    nSrc i l₁ = nSrc i l₂ := by
  induction h with
  | nil => rfl
  | cons x _ ih => simp [nSrc, ih]
  | swap x y l => simp [nSrc]; omega
  | trans _ _ ih₁ ih₂ => exact ih₁.trans ih₂

/-- The packets embedded in the pending `PACKET_DEPARTURE` events of a queue. -/
def depPackets (q : List Event) : List Packet :=
  q.filterMap fun e => match e with | .departure _ p => some p | .arrival _ _ => none

theorem depPackets_arrival_cons (t : Rat) (i : Nat) (q : List Event) :
    depPackets (.arrival t i :: q) = depPackets q := rfl

theorem depPackets_departure_cons (t : Rat) (p : Packet) (q : List Event) :
    depPackets (.departure t p :: q) = p :: depPackets q := rfl

theorem depPackets_insertSorted (e : Event) (q : List Event) :
    List.Perm (depPackets (insertSorted Event.time e q)) (depPackets (e :: q)) :=
  (insertSorted_perm Event.time e q).filterMap _

theorem nSrc_dep_insert_arrival (t : Rat) (j i : Nat) (q : List Event) :
    nSrc i (depPackets (insertSorted Event.time (.arrival t j) q)) =
      nSrc i (depPackets q) :=
  nSrc_perm (depPackets_insertSorted _ q) i

theorem nSrc_dep_insert_departure (t : Rat) (p : Packet) (i : Nat) (q : List Event) :
    nSrc i (depPackets (insertSorted Event.time (.departure t p) q)) =
      (if p.sourceID = i then 1 else 0) + nSrc i (depPackets q) :=
  nSrc_perm (depPackets_insertSorted _ q) i

theorem nSrc_dep_scheduleEvent_arrival (T t : Rat) (j i : Nat) (q : List Event) :
    nSrc i (depPackets (scheduleEvent T (.arrival t j) q)) = nSrc i (depPackets q) := by
  unfold scheduleEvent
  split
  · exact nSrc_dep_insert_arrival t j i q
  · rfl

/-- All events of a queue are scheduled at or before the horizon. -/
def timesLe (T : Rat) (q : List Event) : Prop := ∀ e ∈ q, e.time ≤ T

theorem timesLe_scheduleEvent (T : Rat) (e : Event) {q : List Event}
    (h : timesLe T q) : timesLe T (scheduleEvent T e q) := by
  unfold scheduleEvent
  split
  next he =>
    intro x hx
    rcases mem_insertSorted.mp hx with rfl | hx
    · exact he
    · exact h x hx
  · exact h

theorem timesLe_init (cfg : Config) (sources : List Source) :
    timesLe cfg.simulationTime
      (sources.foldl
        (fun q src => scheduleEvent cfg.simulationTime (.arrival src.startTime src.id) q) []) := by
  have main : ∀ (l : List Source) (q : List Event), timesLe cfg.simulationTime q →
      timesLe cfg.simulationTime
        (l.foldl (fun q src => scheduleEvent cfg.simulationTime (.arrival src.startTime src.id) q) q) := by
    intro l
    induction l with
    | nil => intro q hq; exact hq
    | cons src l ih =>
      intro q hq
      exact ih _ (timesLe_scheduleEvent _ _ hq)
  exact main sources [] (by intro e he; cases he)

theorem depPackets_init (cfg : Config) (sources : List Source) :
    depPackets
      (sources.foldl
        (fun q src => scheduleEvent cfg.simulationTime (.arrival src.startTime src.id) q) []) = [] := by
  have main : ∀ (l : List Source) (q : List Event), depPackets q = [] →
      depPackets
        (l.foldl (fun q src => scheduleEvent cfg.simulationTime (.arrival src.startTime src.id) q) q) = [] := by
    intro l
    induction l with
    | nil => intro q hq; exact hq
    | cons src l ih =>
      intro q hq
      refine ih _ ?_
      dsimp only
      unfold scheduleEvent
      split
      · have := depPackets_insertSorted (.arrival src.startTime src.id) q
        rw [depPackets_arrival_cons, hq] at this
        exact this.eq_nil
      · exact hq
  exact main sources [] rfl

/-! ## Pointwise lemmas for the statistics updates -/

theorem bumpGen_self (st : Nat → SourceStats) (j : Nat) :
    bumpGen st j j = { st j with packetsGenerated := (st j).packetsGenerated + 1 } := by
  simp [bumpGen]

theorem bumpGen_ne (st : Nat → SourceStats) (j i : Nat) (h : i ≠ j) :
    bumpGen st j i = st i := by
  simp [bumpGen, Function.update_noteq h]

theorem bumpDrop_self (st : Nat → SourceStats) (j : Nat) :
    bumpDrop st j j = { st j with packetsDropped := (st j).packetsDropped + 1 } := by
  simp [bumpDrop]

theorem bumpDrop_ne (st : Nat → SourceStats) (j i : Nat) (h : i ≠ j) :
    bumpDrop st j i = st i := by
  simp [bumpDrop, Function.update_noteq h]

theorem addTrans_self (st : Nat → SourceStats) (j : Nat) (size : Int) (delay : Rat) :
    addTrans st j size delay j =
      { st j with
        packetsTransmitted := (st j).packetsTransmitted + 1
        bytesTransmitted := (st j).bytesTransmitted + (size : Rat)
        totalDelay := (st j).totalDelay + delay } := by
  simp [addTrans]

theorem addTrans_ne (st : Nat → SourceStats) (j i : Nat) (size : Int) (delay : Rat)
    (h : i ≠ j) : addTrans st j size delay i = st i := by
  simp [addTrans, Function.update_noteq h]

theorem nSrc_singleton (i : Nat) (p : Packet) :
    nSrc i [p] = if p.sourceID = i then 1 else 0 := by
  simp [nSrc]

namespace FCFS

/-! ### Case equations for the FCFS machine -/

theorem startNext_busy (cfg : Config) (s : State) (h : s.linkBusy = true) :
    startNextTransmission cfg s = s := by
  unfold startNextTransmission
  simp [h]

theorem startNext_idle_empty (cfg : Config) (s : State) (h : s.linkBusy = false)
    (hb : s.buffer = []) : startNextTransmission cfg s = s := by
  unfold startNextTransmission
  simp [h, hb]

theorem startNext_sched (cfg : Config) (s : State) (p : Packet) (rest : List Packet)
    (h : s.linkBusy = false) (hb : s.buffer = p :: rest)
    (hd : s.currentTime + (p.size : Rat) / cfg.linkCapacity ≤ cfg.simulationTime) :
    startNextTransmission cfg s =
      { s with linkBusy := true, buffer := rest,
               eventQueue := insertSorted Event.time
                 (.departure (s.currentTime + (p.size : Rat) / cfg.linkCapacity) p)
                 s.eventQueue } := by
  unfold startNextTransmission
  simp [h, hb, hd]

theorem startNext_lost (cfg : Config) (s : State) (p : Packet) (rest : List Packet)
    (h : s.linkBusy = false) (hb : s.buffer = p :: rest)
    (hd : ¬ s.currentTime + (p.size : Rat) / cfg.linkCapacity ≤ cfg.simulationTime) :
    startNextTransmission cfg s =
      { s with linkBusy := true, buffer := rest, lost := s.lost ++ [p] } := by
  unfold startNextTransmission
  simp [h, hb, hd]

/-- The event queue after the next-arrival scheduling step of
`handleArrivalEvent` (fcfs_simulator.cpp:113-117). -/
def nextQueue (cfg : Config) (ora : Oracle) (srcID : Nat) (s : State) : List Event :=
  if s.currentTime + (ora s.draws).1 < (cfg.sources.getD srcID dfltSource).endTime then
    scheduleEvent cfg.simulationTime (.arrival (s.currentTime + (ora s.draws).1) srcID)
      s.eventQueue
  else s.eventQueue

/-- The packet generated by `handleArrivalEvent` (fcfs_simulator.cpp:120). -/
def newPacket (ora : Oracle) (srcID : Nat) (s : State) : Packet :=
  ⟨s.nextPacketId, srcID, (ora s.draws).2, 0, s.currentTime, 0⟩

theorem arrival_enq (cfg : Config) (ora : Oracle) (srcID : Nat) (s : State)
    (h : s.buffer.length < cfg.bufferSize) :
    handleArrivalEvent cfg ora srcID s =
      startNextTransmission cfg
        { s with eventQueue := nextQueue cfg ora srcID s,
                 nextPacketId := s.nextPacketId + 1, draws := s.draws + 1,
                 stats := bumpGen s.stats srcID,
                 buffer := s.buffer ++ [newPacket ora srcID s] } := by
  unfold handleArrivalEvent nextQueue newPacket
  simp only [if_pos h]

theorem arrival_drop (cfg : Config) (ora : Oracle) (srcID : Nat) (s : State)
    (h : ¬ s.buffer.length < cfg.bufferSize) :
    handleArrivalEvent cfg ora srcID s =
      startNextTransmission cfg
        { s with eventQueue := nextQueue cfg ora srcID s,
                 nextPacketId := s.nextPacketId + 1, draws := s.draws + 1,
                 stats := bumpDrop (bumpGen s.stats srcID) srcID,
                 dropLog := s.dropLog ++ [newPacket ora srcID s] } := by
  unfold handleArrivalEvent nextQueue newPacket
  simp only [if_neg h]

theorem departure_eq (cfg : Config) (p : Packet) (s : State) :
    handleDepartureEvent cfg p s =
      startNextTransmission cfg
        { s with linkBusy := false,
                 stats := addTrans s.stats p.sourceID p.size (s.currentTime - p.arrivalTime),
                 depLog := s.depLog ++ [(s.currentTime, p.id)] } := rfl

theorem runFuel_nil (cfg : Config) (ora : Oracle) (n : Nat) (s : State)
    (h : s.eventQueue = []) : runFuel cfg ora (n + 1) s = s := by
  rw [runFuel, h]

theorem runFuel_break (cfg : Config) (ora : Oracle) (n : Nat) (s : State) (e : Event)
    (q : List Event) (h : s.eventQueue = e :: q) (hT : cfg.simulationTime < e.time) :
    runFuel cfg ora (n + 1) s = { s with currentTime := e.time, eventQueue := q } := by
  rw [runFuel, h]
  simp [hT]

theorem runFuel_arrival (cfg : Config) (ora : Oracle) (n : Nat) (s : State) (t : Rat)
    (j : Nat) (q : List Event) (h : s.eventQueue = Event.arrival t j :: q)
    (hT : ¬ cfg.simulationTime < t) :
    runFuel cfg ora (n + 1) s =
      runFuel cfg ora n
        (handleArrivalEvent cfg ora j { s with currentTime := t, eventQueue := q }) := by
  rw [runFuel, h]
  simp [Event.time, hT]

theorem runFuel_departure (cfg : Config) (ora : Oracle) (n : Nat) (s : State) (t : Rat)
    (p : Packet) (q : List Event) (h : s.eventQueue = Event.departure t p :: q)
    (hT : ¬ cfg.simulationTime < t) :
    runFuel cfg ora (n + 1) s =
      runFuel cfg ora n
        (handleDepartureEvent cfg p { s with currentTime := t, eventQueue := q }) := by
  rw [runFuel, h]
  simp [Event.time, hT]

/-! ### Horizon bound on queued events -/

theorem nSrc_dep_nextQueue (cfg : Config) (ora : Oracle) (srcID : Nat) (s : State)
    (i : Nat) :
    nSrc i (depPackets (nextQueue cfg ora srcID s)) = nSrc i (depPackets s.eventQueue) := by
  unfold nextQueue
  split
  · exact nSrc_dep_scheduleEvent_arrival _ _ _ _ _
  · rfl

theorem timesLe_nextQueue (cfg : Config) (ora : Oracle) (srcID : Nat) {s : State}
    (h : timesLe cfg.simulationTime s.eventQueue) :
    timesLe cfg.simulationTime (nextQueue cfg ora srcID s) := by
  unfold nextQueue
  split
  · exact timesLe_scheduleEvent _ _ h
  · exact h

theorem timesLe_startNext (cfg : Config) {s : State}
    (h : timesLe cfg.simulationTime s.eventQueue) :
    timesLe cfg.simulationTime (startNextTransmission cfg s).eventQueue := by
  cases hb : s.linkBusy with
  | true => rw [startNext_busy cfg s hb]; exact h
  | false =>
    rcases hbuf : s.buffer with _ | ⟨p, rest⟩
    · rw [startNext_idle_empty cfg s hb hbuf]; exact h
    · by_cases hd : s.currentTime + (p.size : Rat) / cfg.linkCapacity ≤ cfg.simulationTime
      · rw [startNext_sched cfg s p rest hb hbuf hd]
        intro e he
        rcases mem_insertSorted.mp he with rfl | he
        · exact hd
        · exact h e he
      · rw [startNext_lost cfg s p rest hb hbuf hd]
        exact h

theorem timesLe_arrival (cfg : Config) (ora : Oracle) (srcID : Nat) {s : State}
    (h : timesLe cfg.simulationTime s.eventQueue) :
    timesLe cfg.simulationTime (handleArrivalEvent cfg ora srcID s).eventQueue := by
  by_cases hB : s.buffer.length < cfg.bufferSize
  · rw [arrival_enq cfg ora srcID s hB]
    exact timesLe_startNext cfg (timesLe_nextQueue cfg ora srcID h)
  · rw [arrival_drop cfg ora srcID s hB]
    exact timesLe_startNext cfg (timesLe_nextQueue cfg ora srcID h)

theorem timesLe_departure (cfg : Config) (p : Packet) {s : State}
    (h : timesLe cfg.simulationTime s.eventQueue) :
    timesLe cfg.simulationTime (handleDepartureEvent cfg p s).eventQueue := by
  rw [departure_eq]
  exact timesLe_startNext cfg h

/-! ### The conservation invariant (claim C1) -/

/-- Packets of source `i` that are buffered, in a pending departure event, or
recorded as lost to the horizon filter. -/
def countSum (i : Nat) (s : State) : Nat :=
  nSrc i s.buffer + nSrc i (depPackets s.eventQueue) + nSrc i s.lost

/-- Per-source conservation: generated = transmitted + dropped + buffered +
pending + lost. -/
def Counts (s : State) : Prop :=
  ∀ i, (s.stats i).packetsGenerated =
    (s.stats i).packetsTransmitted + (s.stats i).packetsDropped + countSum i s

theorem counts_startNext (cfg : Config) {s : State} (h : Counts s) :
    Counts (startNextTransmission cfg s) := by
  cases hb : s.linkBusy with
  | true => rw [startNext_busy cfg s hb]; exact h
  | false =>
    rcases hbuf : s.buffer with _ | ⟨p, rest⟩
    · rw [startNext_idle_empty cfg s hb hbuf]; exact h
    · by_cases hd : s.currentTime + (p.size : Rat) / cfg.linkCapacity ≤ cfg.simulationTime
      · rw [startNext_sched cfg s p rest hb hbuf hd]
        intro i
        have hi := h i
        simp only [countSum, hbuf, nSrc, nSrc_dep_insert_departure] at hi ⊢
        by_cases hpi : p.sourceID = i <;> simp only [hpi, if_pos, if_neg] at hi ⊢ <;> omega
      · rw [startNext_lost cfg s p rest hb hbuf hd]
        intro i
        have hi := h i
        simp only [countSum, hbuf, nSrc, nSrc_append, nSrc_singleton] at hi ⊢
        by_cases hpi : p.sourceID = i <;> simp only [hpi, if_pos, if_neg] at hi ⊢ <;> omega

theorem counts_arrival (cfg : Config) (ora : Oracle) (srcID : Nat) {s : State}
    (h : Counts s) : Counts (handleArrivalEvent cfg ora srcID s) := by
  by_cases hB : s.buffer.length < cfg.bufferSize
  · rw [arrival_enq cfg ora srcID s hB]
    refine counts_startNext cfg ?_
    intro i
    have hi := h i
    by_cases hij : i = srcID
    · subst hij
      simp only [countSum, bumpGen_self, nSrc_append, nSrc_singleton, newPacket,
        nSrc_dep_nextQueue, if_true] at hi ⊢
      omega
    · have hsi : ¬ srcID = i := fun hc => hij hc.symm
      simp only [countSum, bumpGen_ne _ _ _ hij, nSrc_append, nSrc_singleton, newPacket,
        nSrc_dep_nextQueue, if_neg hsi] at hi ⊢
      omega
  · rw [arrival_drop cfg ora srcID s hB]
    refine counts_startNext cfg ?_
    intro i
    have hi := h i
    by_cases hij : i = srcID
    · subst hij
      simp only [countSum, nSrc_dep_nextQueue] at hi ⊢
      simp only [bumpDrop_self, bumpGen_self]
      omega
    · simp only [countSum, nSrc_dep_nextQueue] at hi ⊢
      simp only [bumpDrop_ne _ _ _ hij, bumpGen_ne _ _ _ hij]
      omega

theorem counts_departure (cfg : Config) (p : Packet) {s : State}
    (h : ∀ i, (s.stats i).packetsGenerated =
      (s.stats i).packetsTransmitted + (s.stats i).packetsDropped + countSum i s +
        (if p.sourceID = i then 1 else 0)) :
    Counts (handleDepartureEvent cfg p s) := by
  rw [departure_eq]
  refine counts_startNext cfg ?_
  intro i
  have hi := h i
  by_cases hip : i = p.sourceID
  · subst hip
    simp only [countSum, addTrans_self, if_true] at hi ⊢
    omega
  · have hps : ¬ p.sourceID = i := fun hc => hip hc.symm
    simp only [countSum, addTrans_ne _ _ _ _ _ hip, if_neg hps] at hi ⊢
    omega

theorem counts_runFuel (cfg : Config) (ora : Oracle) (n : Nat) (s : State)
    (hT : timesLe cfg.simulationTime s.eventQueue) (h : Counts s) :
    Counts (runFuel cfg ora n s) := by
  induction n generalizing s with
  | zero => exact h
  | succ n ih =>
    rcases hq : s.eventQueue with _ | ⟨e, q⟩
    · rw [runFuel_nil cfg ora n s hq]; exact h
    · have hle : e.time ≤ cfg.simulationTime := hT e (by rw [hq]; exact List.mem_cons_self _ _)
      have hnb : ¬ cfg.simulationTime < e.time := not_lt.mpr hle
      have hTq : timesLe cfg.simulationTime q := by
        intro x hx
        exact hT x (by rw [hq]; exact List.mem_cons_of_mem _ hx)
      rcases e with ⟨t, j⟩ | ⟨t, p⟩
      · rw [runFuel_arrival cfg ora n s t j q hq hnb]
        refine ih _ (timesLe_arrival cfg ora j hTq) (counts_arrival cfg ora j ?_)
        intro i
        have hi := h i
        simp only [countSum, hq, depPackets_arrival_cons] at hi ⊢
        exact hi
      · rw [runFuel_departure cfg ora n s t p q hq hnb]
        refine ih _ (timesLe_departure cfg p hTq) (counts_departure cfg p ?_)
        intro i
        have hi := h i
        simp only [countSum, hq, depPackets_departure_cons, nSrc] at hi ⊢
        by_cases hpi : p.sourceID = i <;> simp only [hpi, if_pos, if_neg] at hi ⊢ <;> omega

theorem counts_init (cfg : Config) : Counts (init cfg) := by
  intro i
  simp only [init, countSum, depPackets_init, nSrc, SourceStats.zero]

end FCFS

namespace WFQ

/-! ### Case equations for the WFQ machine -/

theorem w_startNext_busy (cfg : Config) (s : State) (h : s.linkBusy = true) :
    startNextTransmission cfg s = s := by
  unfold startNextTransmission
  simp [h]

theorem w_startNext_idle_empty (cfg : Config) (s : State) (h : s.linkBusy = false)
    (hb : s.buffer = []) : startNextTransmission cfg s = s := by
  unfold startNextTransmission
  simp [h, hb]

theorem w_startNext_sched (cfg : Config) (s : State) (p : Packet) (rest : List Packet)
    (h : s.linkBusy = false) (hb : s.buffer = p :: rest)
    (hd : s.currentTime + (p.size : Rat) / cfg.linkCapacity ≤ cfg.simulationTime) :
    startNextTransmission cfg s =
      { s with linkBusy := true, buffer := rest,
               systemVirtualTime := p.virtualFinishTime - (p.size : Rat) / p.weight,
               vLog := s.vLog ++ [p.virtualFinishTime - (p.size : Rat) / p.weight],
               eventQueue := insertSorted Event.time
                 (.departure (s.currentTime + (p.size : Rat) / cfg.linkCapacity) p)
                 s.eventQueue } := by
  unfold startNextTransmission
  simp [h, hb, hd]

theorem w_startNext_lost (cfg : Config) (s : State) (p : Packet) (rest : List Packet)
    (h : s.linkBusy = false) (hb : s.buffer = p :: rest)
    (hd : ¬ s.currentTime + (p.size : Rat) / cfg.linkCapacity ≤ cfg.simulationTime) :
    startNextTransmission cfg s =
      { s with linkBusy := true, buffer := rest,
               systemVirtualTime := p.virtualFinishTime - (p.size : Rat) / p.weight,
               vLog := s.vLog ++ [p.virtualFinishTime - (p.size : Rat) / p.weight],
               lost := s.lost ++ [p] } := by
  unfold startNextTransmission
  simp [h, hb, hd]

/-- The event queue after the next-arrival scheduling step of
`handleArrivalEvent` (wfq_simulator.cpp:131-135). -/
def nextQueue (cfg : Config) (ora : Oracle) (srcID : Nat) (s : State) : List Event :=
  if s.currentTime + (ora s.draws).1 < (cfg.sources.getD srcID dfltSource).endTime then
    scheduleEvent cfg.simulationTime (.arrival (s.currentTime + (ora s.draws).1) srcID)
      s.eventQueue
  else s.eventQueue

/-- The virtual finish time `F = max(V, lastFinishTime) + size/weight` of the
packet generated by `handleArrivalEvent` (wfq_simulator.cpp:146-147). -/
def vftOf (cfg : Config) (ora : Oracle) (srcID : Nat) (s : State) : Rat :=
  max s.systemVirtualTime (s.lastF srcID) +
    ((ora s.draws).2 : Rat) / (cfg.sources.getD srcID dfltSource).weight

/-- The packet generated by `handleArrivalEvent` (wfq_simulator.cpp:138-148). -/
def newPacket (cfg : Config) (ora : Oracle) (srcID : Nat) (s : State) : Packet :=
  ⟨s.nextPacketId, srcID, (ora s.draws).2, (cfg.sources.getD srcID dfltSource).weight,
    s.currentTime, vftOf cfg ora srcID s⟩

theorem newPacket_sourceID (cfg : Config) (ora : Oracle) (srcID : Nat) (s : State) :
    (newPacket cfg ora srcID s).sourceID = srcID := rfl

theorem admit_insert (B : Nat) (p : Packet) (buffer : List Packet)
    (st : Nat → SourceStats) (dl : List Packet) (h : buffer.length < B) :
    admitPacket B p buffer st dl =
      some (insertSorted Packet.virtualFinishTime p buffer, st, dl) := by
  unfold admitPacket
  rw [if_pos h]

theorem admit_dropmin (B : Nat) (p d : Packet) (rest : List Packet)
    (st : Nat → SourceStats) (dl : List Packet) (h : ¬ (d :: rest).length < B) :
    admitPacket B p (d :: rest) st dl =
      some (insertSorted Packet.virtualFinishTime p rest, bumpDrop st d.sourceID,
        dl ++ [d]) := by
  unfold admitPacket
  rw [if_neg h]

theorem admit_ub (B : Nat) (p : Packet) (st : Nat → SourceStats) (dl : List Packet)
    (h : ¬ ([] : List Packet).length < B) :
    admitPacket B p [] st dl = none := by
  unfold admitPacket
  rw [if_neg h]

theorem w_arrival_enq (cfg : Config) (ora : Oracle) (srcID : Nat) (s : State)
    (h : s.buffer.length < cfg.bufferSize) :
    handleArrivalEvent cfg ora srcID s =
      some (startNextTransmission cfg
        { s with eventQueue := nextQueue cfg ora srcID s,
                 nextPacketId := s.nextPacketId + 1, draws := s.draws + 1,
                 lastF := Function.update s.lastF srcID (vftOf cfg ora srcID s),
                 stats := bumpGen s.stats srcID,
                 buffer := insertSorted Packet.virtualFinishTime
                   (newPacket cfg ora srcID s) s.buffer,
                 genLog := s.genLog ++ [newPacket cfg ora srcID s] }) := by
  simp only [handleArrivalEvent, admit_insert _ _ _ _ _ h]
  rfl

theorem arrival_dropmin (cfg : Config) (ora : Oracle) (srcID : Nat) (s : State)
    (d : Packet) (rest : List Packet)
    (hB : ¬ s.buffer.length < cfg.bufferSize) (hbuf : s.buffer = d :: rest) :
    handleArrivalEvent cfg ora srcID s =
      some (startNextTransmission cfg
        { s with eventQueue := nextQueue cfg ora srcID s,
                 nextPacketId := s.nextPacketId + 1, draws := s.draws + 1,
                 lastF := Function.update s.lastF srcID (vftOf cfg ora srcID s),
                 stats := bumpDrop (bumpGen s.stats srcID) d.sourceID,
                 buffer := insertSorted Packet.virtualFinishTime
                   (newPacket cfg ora srcID s) rest,
                 dropLog := s.dropLog ++ [d],
                 genLog := s.genLog ++ [newPacket cfg ora srcID s] }) := by
  rw [hbuf] at hB
  simp only [handleArrivalEvent, hbuf, admit_dropmin _ _ _ _ _ _ hB]
  rfl

theorem arrival_ub (cfg : Config) (ora : Oracle) (srcID : Nat) (s : State)
    (hB : ¬ s.buffer.length < cfg.bufferSize) (hbuf : s.buffer = []) :
    handleArrivalEvent cfg ora srcID s = none := by
  rw [hbuf] at hB
  simp only [handleArrivalEvent, hbuf, admit_ub _ _ _ _ hB]

theorem w_departure_eq (cfg : Config) (p : Packet) (s : State) :
    handleDepartureEvent cfg p s =
      startNextTransmission cfg
        { s with linkBusy := false,
                 stats := addTrans s.stats p.sourceID p.size (s.currentTime - p.arrivalTime),
                 depLog := s.depLog ++ [(s.currentTime, p.id)] } := rfl

theorem w_runFuel_nil (cfg : Config) (ora : Oracle) (n : Nat) (s : State)
    (h : s.eventQueue = []) : runFuel cfg ora (n + 1) s = some s := by
  rw [runFuel, h]

theorem w_runFuel_break (cfg : Config) (ora : Oracle) (n : Nat) (s : State) (e : Event)
    (q : List Event) (h : s.eventQueue = e :: q) (hT : cfg.simulationTime < e.time) :
    runFuel cfg ora (n + 1) s = some { s with currentTime := e.time, eventQueue := q } := by
  rw [runFuel, h]
  simp [hT]

theorem w_runFuel_arrival (cfg : Config) (ora : Oracle) (n : Nat) (s : State) (t : Rat)
    (j : Nat) (q : List Event) (h : s.eventQueue = Event.arrival t j :: q)
    (hT : ¬ cfg.simulationTime < t) :
    runFuel cfg ora (n + 1) s =
      match handleArrivalEvent cfg ora j { s with currentTime := t, eventQueue := q } with
      | none => none
      | some s2 => runFuel cfg ora n s2 := by
  rw [runFuel, h]
  simp [Event.time, hT]

theorem w_runFuel_departure (cfg : Config) (ora : Oracle) (n : Nat) (s : State) (t : Rat)
    (p : Packet) (q : List Event) (h : s.eventQueue = Event.departure t p :: q)
    (hT : ¬ cfg.simulationTime < t) :
    runFuel cfg ora (n + 1) s =
      runFuel cfg ora n
        (handleDepartureEvent cfg p { s with currentTime := t, eventQueue := q }) := by
  rw [runFuel, h]
  simp [Event.time, hT]

/-! ### Horizon bound on queued events -/

theorem w_nSrc_dep_nextQueue (cfg : Config) (ora : Oracle) (srcID : Nat) (s : State)
    (i : Nat) :
    nSrc i (depPackets (nextQueue cfg ora srcID s)) = nSrc i (depPackets s.eventQueue) := by
  unfold nextQueue
  split
  · exact nSrc_dep_scheduleEvent_arrival _ _ _ _ _
  · rfl

theorem w_timesLe_nextQueue (cfg : Config) (ora : Oracle) (srcID : Nat) {s : State}
    (h : timesLe cfg.simulationTime s.eventQueue) :
    timesLe cfg.simulationTime (nextQueue cfg ora srcID s) := by
  unfold nextQueue
  split
  · exact timesLe_scheduleEvent _ _ h
  · exact h

theorem w_timesLe_startNext (cfg : Config) {s : State}
    (h : timesLe cfg.simulationTime s.eventQueue) :
    timesLe cfg.simulationTime (startNextTransmission cfg s).eventQueue := by
  cases hb : s.linkBusy with
  | true => rw [w_startNext_busy cfg s hb]; exact h
  | false =>
    rcases hbuf : s.buffer with _ | ⟨p, rest⟩
    · rw [w_startNext_idle_empty cfg s hb hbuf]; exact h
    · by_cases hd : s.currentTime + (p.size : Rat) / cfg.linkCapacity ≤ cfg.simulationTime
      · rw [w_startNext_sched cfg s p rest hb hbuf hd]
        intro e he
        rcases mem_insertSorted.mp he with rfl | he
        · exact hd
        · exact h e he
      · rw [w_startNext_lost cfg s p rest hb hbuf hd]
        exact h

theorem w_timesLe_arrival (cfg : Config) (ora : Oracle) (srcID : Nat) {s s2 : State}
    (hr : handleArrivalEvent cfg ora srcID s = some s2)
    (h : timesLe cfg.simulationTime s.eventQueue) :
    timesLe cfg.simulationTime s2.eventQueue := by
  by_cases hB : s.buffer.length < cfg.bufferSize
  · rw [w_arrival_enq cfg ora srcID s hB] at hr
    obtain rfl := Option.some.inj hr
    exact w_timesLe_startNext cfg (w_timesLe_nextQueue cfg ora srcID h)
  · rcases hbuf : s.buffer with _ | ⟨d, rest⟩
    · rw [arrival_ub cfg ora srcID s hB hbuf] at hr
      cases hr
    · rw [arrival_dropmin cfg ora srcID s d rest hB hbuf] at hr
      obtain rfl := Option.some.inj hr
      exact w_timesLe_startNext cfg (w_timesLe_nextQueue cfg ora srcID h)

theorem w_timesLe_departure (cfg : Config) (p : Packet) {s : State}
    (h : timesLe cfg.simulationTime s.eventQueue) :
    timesLe cfg.simulationTime (handleDepartureEvent cfg p s).eventQueue := by
  rw [w_departure_eq]
  exact w_timesLe_startNext cfg h

/-! ### The conservation invariant (claim C1) -/

/-- Packets of source `i` that are buffered, in a pending departure event, or
recorded as lost to the horizon filter. -/
def countSum (i : Nat) (s : State) : Nat :=
  nSrc i s.buffer + nSrc i (depPackets s.eventQueue) + nSrc i s.lost

/-- Per-source conservation: generated = transmitted + dropped + buffered +
pending + lost. -/
def Counts (s : State) : Prop :=
  ∀ i, (s.stats i).packetsGenerated =
    (s.stats i).packetsTransmitted + (s.stats i).packetsDropped + countSum i s

theorem w_counts_startNext (cfg : Config) {s : State} (h : Counts s) :
    Counts (startNextTransmission cfg s) := by
  cases hb : s.linkBusy with
  | true => rw [w_startNext_busy cfg s hb]; exact h
  | false =>
    rcases hbuf : s.buffer with _ | ⟨p, rest⟩
    · rw [w_startNext_idle_empty cfg s hb hbuf]; exact h
    · by_cases hd : s.currentTime + (p.size : Rat) / cfg.linkCapacity ≤ cfg.simulationTime
      · rw [w_startNext_sched cfg s p rest hb hbuf hd]
        intro i
        have hi := h i
        simp only [countSum, hbuf, nSrc, nSrc_dep_insert_departure] at hi ⊢
        by_cases hpi : p.sourceID = i <;> simp only [hpi, if_pos, if_neg] at hi ⊢ <;> omega
      · rw [w_startNext_lost cfg s p rest hb hbuf hd]
        intro i
        have hi := h i
        simp only [countSum, hbuf, nSrc, nSrc_append, nSrc_singleton] at hi ⊢
        by_cases hpi : p.sourceID = i <;> simp only [hpi, if_pos, if_neg] at hi ⊢ <;> omega

theorem w_counts_arrival (cfg : Config) (ora : Oracle) (srcID : Nat) {s s2 : State}
    (hr : handleArrivalEvent cfg ora srcID s = some s2) (h : Counts s) : Counts s2 := by
  by_cases hB : s.buffer.length < cfg.bufferSize
  · rw [w_arrival_enq cfg ora srcID s hB] at hr
    obtain rfl := Option.some.inj hr
    refine w_counts_startNext cfg ?_
    intro i
    have hi := h i
    have hins := nSrc_perm
      (insertSorted_perm Packet.virtualFinishTime (newPacket cfg ora srcID s) s.buffer) i
    by_cases hij : i = srcID
    · subst hij
      simp only [countSum, bumpGen_self, w_nSrc_dep_nextQueue, hins, nSrc,
        newPacket_sourceID, if_true] at hi ⊢
      omega
    · have hsi : ¬ srcID = i := fun hc => hij hc.symm
      simp only [countSum, bumpGen_ne _ _ _ hij, w_nSrc_dep_nextQueue, hins, nSrc,
        newPacket_sourceID, if_neg hsi] at hi ⊢
      omega
  · rcases hbuf : s.buffer with _ | ⟨d, rest⟩
    · rw [arrival_ub cfg ora srcID s hB hbuf] at hr
      cases hr
    · rw [arrival_dropmin cfg ora srcID s d rest hB hbuf] at hr
      obtain rfl := Option.some.inj hr
      refine w_counts_startNext cfg ?_
      intro i
      have hi := h i
      have hins := nSrc_perm
        (insertSorted_perm Packet.virtualFinishTime (newPacket cfg ora srcID s) rest) i
      simp only [countSum, hbuf, w_nSrc_dep_nextQueue, hins, nSrc, newPacket_sourceID] at hi ⊢
      by_cases hij : srcID = i
      · by_cases hdi : d.sourceID = i
        · simp only [hij, hdi, if_true] at hi ⊢
          simp only [bumpDrop_self, bumpGen_self] at *
          omega
        · have hdi2 : i ≠ d.sourceID := fun hc => hdi hc.symm
          simp only [hij, if_true, if_neg hdi] at hi ⊢
          simp only [bumpDrop_ne _ _ _ hdi2, bumpGen_self] at *
          omega
      · by_cases hdi : d.sourceID = i
        · have hij2 : i ≠ srcID := fun hc => hij hc.symm
          simp only [if_neg hij, hdi, if_true] at hi ⊢
          simp only [bumpDrop_self, bumpGen_ne _ _ _ hij2] at *
          omega
        · have hij2 : i ≠ srcID := fun hc => hij hc.symm
          have hdi2 : i ≠ d.sourceID := fun hc => hdi hc.symm
          simp only [if_neg hij, if_neg hdi] at hi ⊢
          simp only [bumpDrop_ne _ _ _ hdi2, bumpGen_ne _ _ _ hij2] at *
          omega

theorem w_counts_departure (cfg : Config) (p : Packet) {s : State}
    (h : ∀ i, (s.stats i).packetsGenerated =
      (s.stats i).packetsTransmitted + (s.stats i).packetsDropped + countSum i s +
        (if p.sourceID = i then 1 else 0)) :
    Counts (handleDepartureEvent cfg p s) := by
  rw [w_departure_eq]
  refine w_counts_startNext cfg ?_
  intro i
  have hi := h i
  by_cases hip : i = p.sourceID
  · subst hip
    simp only [countSum, addTrans_self, if_true] at hi ⊢
    omega
  · have hps : ¬ p.sourceID = i := fun hc => hip hc.symm
    simp only [countSum, addTrans_ne _ _ _ _ _ hip, if_neg hps] at hi ⊢
    omega

theorem w_counts_runFuel (cfg : Config) (ora : Oracle) (n : Nat) {s s2 : State}
    (hr : runFuel cfg ora n s = some s2)
    (hT : timesLe cfg.simulationTime s.eventQueue) (h : Counts s) : Counts s2 := by
  induction n generalizing s with
  | zero => obtain rfl := Option.some.inj hr; exact h
  | succ n ih =>
    rcases hq : s.eventQueue with _ | ⟨e, q⟩
    · rw [w_runFuel_nil cfg ora n s hq] at hr
      obtain rfl := Option.some.inj hr
      exact h
    · have hle : e.time ≤ cfg.simulationTime := hT e (by rw [hq]; exact List.mem_cons_self _ _)
      have hnb : ¬ cfg.simulationTime < e.time := not_lt.mpr hle
      have hTq : timesLe cfg.simulationTime q := by
        intro x hx
        exact hT x (by rw [hq]; exact List.mem_cons_of_mem _ hx)
      rcases e with ⟨t, j⟩ | ⟨t, p⟩
      · rw [w_runFuel_arrival cfg ora n s t j q hq hnb] at hr
        rcases hh : handleArrivalEvent cfg ora j
            { s with currentTime := t, eventQueue := q } with _ | s3
        · rw [hh] at hr; cases hr
        · rw [hh] at hr
          refine ih hr (w_timesLe_arrival cfg ora j hh hTq) (w_counts_arrival cfg ora j hh ?_)
          intro i
          have hi := h i
          simp only [countSum, hq, depPackets_arrival_cons] at hi ⊢
          exact hi
      · rw [w_runFuel_departure cfg ora n s t p q hq hnb] at hr
        refine ih hr (w_timesLe_departure cfg p hTq) (w_counts_departure cfg p ?_)
        intro i
        have hi := h i
        simp only [countSum, hq, depPackets_departure_cons, nSrc] at hi ⊢
        by_cases hpi : p.sourceID = i <;> simp only [hpi, if_pos, if_neg] at hi ⊢ <;> omega

end WFQ

theorem wfq_counts_init (cfg : Config) : WFQ.Counts (WFQ.init cfg) := by
  intro i
  simp only [WFQ.init, WFQ.countSum, depPackets_init, nSrc, SourceStats.zero]

/-! ## Claim C1 -/

/-- C1 (amended): for every run and source, `generated = transmitted +
dropped + buffered + pending-departure + lost-to-horizon`, where the last
two terms count the at most one packet handed to the link whose departure
event is still queued, respectively was silently discarded because it fell
past the horizon.  At loop termination the pending term is 0, but the lost
term need not be, so the claim's three-way split is amended by the `lost`
summand. -/
theorem c1_conservation_amended :
    (∀ (cfg : Config) (ora : Oracle) (n i : Nat),
      ((FCFS.runFuel cfg ora n (FCFS.init cfg)).stats i).packetsGenerated =
        ((FCFS.runFuel cfg ora n (FCFS.init cfg)).stats i).packetsTransmitted +
        ((FCFS.runFuel cfg ora n (FCFS.init cfg)).stats i).packetsDropped +
        FCFS.countSum i (FCFS.runFuel cfg ora n (FCFS.init cfg))) ∧
    (∀ (cfg : Config) (ora : Oracle) (n : Nat) (s2 : WFQ.State) (i : Nat),
      WFQ.runFuel cfg ora n (WFQ.init cfg) = some s2 →
      (s2.stats i).packetsGenerated =
        (s2.stats i).packetsTransmitted + (s2.stats i).packetsDropped +
        WFQ.countSum i s2) := by
  constructor
  · intro cfg ora n i
    exact FCFS.counts_runFuel cfg ora n (FCFS.init cfg)
      (timesLe_init cfg cfg.sources) (FCFS.counts_init cfg) i
  · intro cfg ora n s2 i hr
    exact WFQ.w_counts_runFuel cfg ora n hr
      (timesLe_init cfg cfg.sources) (wfq_counts_init cfg) i

def c1wCfg : Config := ⟨1, 10, 1, 1, [⟨0, 1, 0, 0, 1, 0, 10⟩]⟩

def c1wOra : Oracle := fun _ => (100, 2)

theorem c1_conservation_amended_witness :
    (((FCFS.runFuel c1wCfg c1wOra 3 (FCFS.init c1wCfg)).stats 0).packetsGenerated =
      ((FCFS.runFuel c1wCfg c1wOra 3 (FCFS.init c1wCfg)).stats 0).packetsTransmitted +
      ((FCFS.runFuel c1wCfg c1wOra 3 (FCFS.init c1wCfg)).stats 0).packetsDropped +
      FCFS.countSum 0 (FCFS.runFuel c1wCfg c1wOra 3 (FCFS.init c1wCfg))) ∧
    ∃ s2, WFQ.runFuel c1wCfg c1wOra 3 (WFQ.init c1wCfg) = some s2 ∧
      (s2.stats 0).packetsGenerated =
        (s2.stats 0).packetsTransmitted + (s2.stats 0).packetsDropped +
        WFQ.countSum 0 s2 := by
  constructor
  · exact c1_conservation_amended.1 c1wCfg c1wOra 3 0
  · rcases hs : WFQ.runFuel c1wCfg c1wOra 3 (WFQ.init c1wCfg) with _ | s2
    · have hsm : (WFQ.runFuel c1wCfg c1wOra 3 (WFQ.init c1wCfg)).isSome = true := by decide
      rw [hs] at hsm
      exact Bool.noConfusion hsm
    · exact ⟨s2, rfl, c1_conservation_amended.2 c1wCfg c1wOra 3 s2 0 hs⟩

def c1cCfg : Config := ⟨1, 10, 1, 1, [⟨0, 1, 0, 0, 1, 0, 10⟩]⟩

def c1cOra : Oracle := fun _ => (100, 100)

/-- C1 counterexample: one packet of size 100 arrives at time 0 on a link of
capacity 1 with horizon 10.  It is dispatched, its departure event (time
100 > 10) is silently discarded, and the main loop then terminates with an
empty queue.  The packet is counted in none of transmitted, dropped, or the
buffer, so `generated = transmitted + dropped + buffered` fails (1 ≠ 0). -/
theorem c1_counterexample :
    (FCFS.runFuel c1cCfg c1cOra 3 (FCFS.init c1cCfg)).eventQueue = [] ∧
    ((FCFS.runFuel c1cCfg c1cOra 3 (FCFS.init c1cCfg)).stats 0).packetsGenerated = 1 ∧
    ((FCFS.runFuel c1cCfg c1cOra 3 (FCFS.init c1cCfg)).stats 0).packetsGenerated ≠
      ((FCFS.runFuel c1cCfg c1cOra 3 (FCFS.init c1cCfg)).stats 0).packetsTransmitted +
      ((FCFS.runFuel c1cCfg c1cOra 3 (FCFS.init c1cCfg)).stats 0).packetsDropped +
      nSrc 0 (FCFS.runFuel c1cCfg c1cOra 3 (FCFS.init c1cCfg)).buffer ∧
    nSrc 0 (FCFS.runFuel c1cCfg c1cOra 3 (FCFS.init c1cCfg)).lost = 1 := by
  decide

/-! ## Claim C2 -/

theorem weight_getD_nonneg (cfg : Config) (hw : ∀ src ∈ cfg.sources, 0 ≤ src.weight)
    (i : Nat) : 0 ≤ (cfg.sources.getD i dfltSource).weight := by
  rcases lt_or_le i cfg.sources.length with hi | hi
  · rw [List.getD_eq_getElem _ _ hi]
    exact hw _ (List.getElem_mem _)
  · rw [List.getD_eq_default _ _ hi]
    exact le_refl 0

theorem WFQ.startNext_lastF (cfg : Config) (s : WFQ.State) :
    (WFQ.startNextTransmission cfg s).lastF = s.lastF := by
  cases hb : s.linkBusy with
  | true => rw [WFQ.w_startNext_busy cfg s hb]
  | false =>
    rcases hbuf : s.buffer with _ | ⟨p, rest⟩
    · rw [WFQ.w_startNext_idle_empty cfg s hb hbuf]
    · by_cases hd : s.currentTime + (p.size : Rat) / cfg.linkCapacity ≤ cfg.simulationTime
      · rw [WFQ.w_startNext_sched cfg s p rest hb hbuf hd]
      · rw [WFQ.w_startNext_lost cfg s p rest hb hbuf hd]

theorem WFQ.lastF_arrival (cfg : Config) (ora : Oracle) (srcID : Nat) {s s2 : WFQ.State}
    (hw : ∀ src ∈ cfg.sources, 0 ≤ src.weight) (hL : 0 ≤ (ora s.draws).2)
    (hr : WFQ.handleArrivalEvent cfg ora srcID s = some s2) (i : Nat) :
    s.lastF i ≤ s2.lastF i := by
  have hF : s.lastF srcID ≤ WFQ.vftOf cfg ora srcID s := by
    have h2 : 0 ≤ ((ora s.draws).2 : Rat) / (cfg.sources.getD srcID dfltSource).weight :=
      div_nonneg (by exact_mod_cast hL) (weight_getD_nonneg cfg hw srcID)
    have h1 : s.lastF srcID ≤ max s.systemVirtualTime (s.lastF srcID) := le_max_right _ _
    unfold WFQ.vftOf
    linarith
  have main : ∀ t : WFQ.State,
      t.lastF = Function.update s.lastF srcID (WFQ.vftOf cfg ora srcID s) →
      s.lastF i ≤ t.lastF i := by
    intro t ht
    rw [ht]
    by_cases hij : i = srcID
    · subst hij
      rw [Function.update_same]
      exact hF
    · rw [Function.update_noteq hij]
  by_cases hB : s.buffer.length < cfg.bufferSize
  · rw [WFQ.w_arrival_enq cfg ora srcID s hB] at hr
    obtain rfl := Option.some.inj hr
    exact main _ (by rw [WFQ.startNext_lastF])
  · rcases hbuf : s.buffer with _ | ⟨d, rest⟩
    · rw [WFQ.arrival_ub cfg ora srcID s hB hbuf] at hr
      cases hr
    · rw [WFQ.arrival_dropmin cfg ora srcID s d rest hB hbuf] at hr
      obtain rfl := Option.some.inj hr
      exact main _ (by rw [WFQ.startNext_lastF])

theorem WFQ.lastF_departure (cfg : Config) (p : Packet) (s : WFQ.State) :
    (WFQ.handleDepartureEvent cfg p s).lastF = s.lastF := by
  rw [WFQ.w_departure_eq, WFQ.startNext_lastF]

/-- C2 (amended): along every WFQ run each source's `lastFinishTime` is
non-decreasing (given nonnegative weights and packet sizes).  The sampled
`systemVirtualTime` sequence itself (`vLog`) is *not* non-decreasing in
general — see `c2_counterexample`; each sample still equals the dispatched
packet's virtual start time `virtualFinishTime - size/weight`, which is what
`WFQ.startNextTransmission` writes into `systemVirtualTime` and `vLog`. -/
theorem c2_vtime_amended (cfg : Config) (ora : Oracle) (n : Nat)
    (s s2 : WFQ.State) (i : Nat)
    (hw : ∀ src ∈ cfg.sources, 0 ≤ src.weight) (hL : ∀ k, 0 ≤ (ora k).2)
    (hr : WFQ.runFuel cfg ora n s = some s2) :
    s.lastF i ≤ s2.lastF i := by
  induction n generalizing s with
  | zero => obtain rfl := Option.some.inj hr; exact le_refl _
  | succ n ih =>
    rcases hq : s.eventQueue with _ | ⟨e, q⟩
    · rw [WFQ.w_runFuel_nil cfg ora n s hq] at hr
      obtain rfl := Option.some.inj hr
      exact le_refl _
    · by_cases hT : cfg.simulationTime < e.time
      · rw [WFQ.w_runFuel_break cfg ora n s e q hq hT] at hr
        obtain rfl := Option.some.inj hr
        exact le_refl _
      · rcases e with ⟨t, j⟩ | ⟨t, p⟩
        · rw [WFQ.w_runFuel_arrival cfg ora n s t j q hq (by simpa using hT)] at hr
          rcases hh : WFQ.handleArrivalEvent cfg ora j
              { s with currentTime := t, eventQueue := q } with _ | s3
          · rw [hh] at hr; cases hr
          · rw [hh] at hr
            exact le_trans (WFQ.lastF_arrival cfg ora j hw (hL _) hh i) (ih _ hr)
        · rw [WFQ.w_runFuel_departure cfg ora n s t p q hq (by simpa using hT)] at hr
          have h1 := ih _ hr
          rw [WFQ.lastF_departure cfg p] at h1
          exact h1

def c2wCfg : Config := ⟨1, 10, 1, 1, [⟨0, 1, 0, 0, 1, 0, 10⟩]⟩

def c2wOra : Oracle := fun _ => (100, 2)

theorem c2_vtime_amended_witness :
    ∃ s2, WFQ.runFuel c2wCfg c2wOra 3 (WFQ.init c2wCfg) = some s2 ∧
      (WFQ.init c2wCfg).lastF 0 ≤ s2.lastF 0 := by
  rcases hs : WFQ.runFuel c2wCfg c2wOra 3 (WFQ.init c2wCfg) with _ | s2
  · have hsm : (WFQ.runFuel c2wCfg c2wOra 3 (WFQ.init c2wCfg)).isSome = true := by decide
    rw [hs] at hsm
    exact Bool.noConfusion hsm
  · exact ⟨s2, rfl,
      c2_vtime_amended c2wCfg c2wOra 3 (WFQ.init c2wCfg) s2 0 (by decide)
        (fun _ => (by decide : (0 : Int) ≤ 2)) hs⟩

def c2cCfg : Config :=
  ⟨2, 100, 1, 10, [⟨0, 1, 0, 0, 1, 0, 100⟩, ⟨1, 1, 0, 0, 1/10, 1/10, 100⟩]⟩

def c2cOra : Oracle := fun n =>
  if n = 0 then (1/5, 1) else if n = 1 then (1000, 1) else (1000, 8)

def vLogOf (o : Option WFQ.State) : List Rat :=
  match o with
  | none => []
  | some s => s.vLog

/-- C2 counterexample: in a two-source WFQ run (weights 1 and 1/10) the
`systemVirtualTime` values sampled at the three successive transmission
starts are 0, 1, 0 — the sequence decreases at the third dispatch, so it is
not non-decreasing. -/
theorem c2_counterexample :
    vLogOf (WFQ.runFuel c2cCfg c2cOra 6 (WFQ.init c2cCfg)) = [0, 1, 0] ∧
    ¬ ((vLogOf (WFQ.runFuel c2cCfg c2cOra 6 (WFQ.init c2cCfg))).getD 1 0 ≤
       (vLogOf (WFQ.runFuel c2cCfg c2cOra 6 (WFQ.init c2cCfg))).getD 2 0) := by
  decide

/-! ## Claim C3 -/

/-- C3 (amended): when a WFQ arrival finds the buffer holding exactly B ≥ 1
packets, the admission step (wfq_simulator.cpp:152-162) pops the packet `d`
holding the smallest VFT among the *already buffered* packets, increments
`dropped[d.src]`, and then inserts the arriving packet — which is therefore
itself never the one dropped; the buffer again holds exactly B packets.
(The claim's final clause, that the arriving packet is the one dropped when
it has the smallest VFT among all candidates, is false: see
`c3_counterexample`.) -/
theorem c3_drop_smallest_amended (B : Nat) (p : Packet) (buf : List Packet)
    (st : Nat → SourceStats) (dl : List Packet)
    (hlen : buf.length = B) (hB : 1 ≤ B)
    (hsort : buf.Pairwise fun x y => x.virtualFinishTime ≤ y.virtualFinishTime) :
    ∃ d rest, buf = d :: rest ∧
      (∀ q ∈ buf, d.virtualFinishTime ≤ q.virtualFinishTime) ∧
      WFQ.admitPacket B p buf st dl =
        some (insertSorted Packet.virtualFinishTime p rest, bumpDrop st d.sourceID,
          dl ++ [d]) ∧
      (insertSorted Packet.virtualFinishTime p rest).length = B ∧
      p ∈ insertSorted Packet.virtualFinishTime p rest ∧
      bumpDrop st d.sourceID d.sourceID =
        { st d.sourceID with packetsDropped := (st d.sourceID).packetsDropped + 1 } := by
  rcases hbuf : buf with _ | ⟨d, rest⟩
  · rw [hbuf] at hlen
    simp at hlen
    omega
  · rw [hbuf] at hlen hsort
    simp only [List.length_cons] at hlen
    refine ⟨d, rest, rfl, ?_, ?_, ?_, ?_, ?_⟩
    · intro q hq
      rcases List.mem_cons.mp hq with rfl | hq
      · exact le_refl _
      · exact (List.pairwise_cons.mp hsort).1 q hq
    · exact WFQ.admit_dropmin B p d rest st dl (by simp only [List.length_cons]; omega)
    · rw [length_insertSorted]
      omega
    · exact mem_insertSorted.mpr (Or.inl rfl)
    · exact bumpDrop_self st d.sourceID

def c3wP : Packet := ⟨2, 0, 1, 1, 0, 5⟩

def c3wD : Packet := ⟨1, 0, 1, 1, 0, 10⟩

theorem c3_drop_smallest_amended_witness :
    ∃ d rest, [c3wD] = d :: rest ∧
      (∀ q ∈ [c3wD], d.virtualFinishTime ≤ q.virtualFinishTime) ∧
      WFQ.admitPacket 1 c3wP [c3wD] (fun _ => SourceStats.zero) [] =
        some (insertSorted Packet.virtualFinishTime c3wP rest,
          bumpDrop (fun _ => SourceStats.zero) d.sourceID, [] ++ [d]) ∧
      (insertSorted Packet.virtualFinishTime c3wP rest).length = 1 ∧
      c3wP ∈ insertSorted Packet.virtualFinishTime c3wP rest ∧
      bumpDrop (fun _ => SourceStats.zero) d.sourceID d.sourceID =
        { (fun _ => SourceStats.zero) d.sourceID with
          packetsDropped := ((fun _ => SourceStats.zero) d.sourceID).packetsDropped + 1 } :=
  c3_drop_smallest_amended 1 c3wP [c3wD] (fun _ => SourceStats.zero) [] rfl (by decide)
    (by simp)

def c3cCfg : Config :=
  ⟨3, 100, 1, 1,
    [⟨0, 1, 0, 0, 1, 0, 100⟩, ⟨1, 1, 0, 0, 1/10, 1, 100⟩, ⟨2, 1, 0, 0, 1, 2, 100⟩]⟩

def c3cOra : Oracle := fun n => if n = 0 then (1000, 50) else (1000, 1)

def dropVFTsOf (o : Option WFQ.State) : List Rat :=
  match o with
  | none => []
  | some s => s.dropLog.map Packet.virtualFinishTime

def genVFTsOf (o : Option WFQ.State) : List Rat :=
  match o with
  | none => []
  | some s => s.genLog.map Packet.virtualFinishTime

def depIdsOf (o : Option WFQ.State) : List Nat :=
  match o with
  | none => []
  | some s => s.depLog.map Prod.snd

/-- C3 counterexample: three sources, B = 1.  The generated packets carry
VFTs 50, 10, 1.  When packet 3 (VFT 1) arrives, the buffer holds packet 2
(VFT 10); among all candidates the *arriving* packet has the smallest VFT,
yet the code drops the buffered packet (dropLog shows VFT 10) and packet 3
is later transmitted (departure ids [1, 3]) — so the clause "the arriving
packet itself is the one dropped when it has the smallest VFT among all
candidates" fails. -/
theorem c3_counterexample :
    genVFTsOf (WFQ.runFuel c3cCfg c3cOra 8 (WFQ.init c3cCfg)) = [50, 10, 1] ∧
    dropVFTsOf (WFQ.runFuel c3cCfg c3cOra 8 (WFQ.init c3cCfg)) = [10] ∧
    depIdsOf (WFQ.runFuel c3cCfg c3cOra 8 (WFQ.init c3cCfg)) = [1, 3] := by
  decide

/-! ## Claim C4 -/

theorem WFQ.startNext_genLog (cfg : Config) (s : WFQ.State) :
    (WFQ.startNextTransmission cfg s).genLog = s.genLog := by
  cases hb : s.linkBusy with
  | true => rw [WFQ.w_startNext_busy cfg s hb]
  | false =>
    rcases hbuf : s.buffer with _ | ⟨p, rest⟩
    · rw [WFQ.w_startNext_idle_empty cfg s hb hbuf]
    · by_cases hd : s.currentTime + (p.size : Rat) / cfg.linkCapacity ≤ cfg.simulationTime
      · rw [WFQ.w_startNext_sched cfg s p rest hb hbuf hd]
      · rw [WFQ.w_startNext_lost cfg s p rest hb hbuf hd]

/-- C4: a WFQ arrival from source `srcID` carrying `L = (ora draws).2` bytes
gets virtual start time `S = max(systemVirtualTime, lastFinishTime)` and
virtual finish time `F = S + L/w`; the packet is stamped with `F` and
`lastFinishTime` is set to `F` (the admission branches both leave it `F`, so
the update indeed precedes the admission decision observably). -/
theorem c4_vft_formula (cfg : Config) (ora : Oracle) (srcID : Nat) (s s2 : WFQ.State)
    (hr : WFQ.handleArrivalEvent cfg ora srcID s = some s2) :
    s2.lastF srcID =
      max s.systemVirtualTime (s.lastF srcID) +
        ((ora s.draws).2 : Rat) / (cfg.sources.getD srcID dfltSource).weight ∧
    s2.genLog = s.genLog ++ [WFQ.newPacket cfg ora srcID s] ∧
    (WFQ.newPacket cfg ora srcID s).virtualFinishTime =
      max s.systemVirtualTime (s.lastF srcID) +
        ((ora s.draws).2 : Rat) / (cfg.sources.getD srcID dfltSource).weight := by
  have main : ∀ t : WFQ.State,
      t.lastF = Function.update s.lastF srcID (WFQ.vftOf cfg ora srcID s) →
      t.genLog = s.genLog ++ [WFQ.newPacket cfg ora srcID s] →
      t.lastF srcID =
        max s.systemVirtualTime (s.lastF srcID) +
          ((ora s.draws).2 : Rat) / (cfg.sources.getD srcID dfltSource).weight ∧
      t.genLog = s.genLog ++ [WFQ.newPacket cfg ora srcID s] ∧
      (WFQ.newPacket cfg ora srcID s).virtualFinishTime =
        max s.systemVirtualTime (s.lastF srcID) +
          ((ora s.draws).2 : Rat) / (cfg.sources.getD srcID dfltSource).weight := by
    intro t h1 h2
    refine ⟨?_, h2, rfl⟩
    rw [h1, Function.update_same]
    rfl
  by_cases hB : s.buffer.length < cfg.bufferSize
  · rw [WFQ.w_arrival_enq cfg ora srcID s hB] at hr
    obtain rfl := Option.some.inj hr
    exact main _ (by rw [WFQ.startNext_lastF]) (by rw [WFQ.startNext_genLog])
  · rcases hbuf : s.buffer with _ | ⟨d, rest⟩
    · rw [WFQ.arrival_ub cfg ora srcID s hB hbuf] at hr
      cases hr
    · rw [WFQ.arrival_dropmin cfg ora srcID s d rest hB hbuf] at hr
      obtain rfl := Option.some.inj hr
      exact main _ (by rw [WFQ.startNext_lastF]) (by rw [WFQ.startNext_genLog])

def c4wCfg : Config := ⟨1, 10, 1, 1, [⟨0, 1, 0, 0, 1, 0, 10⟩]⟩

def c4wOra : Oracle := fun _ => (100, 2)

theorem c4_vft_formula_witness :
    ∃ s2, WFQ.handleArrivalEvent c4wCfg c4wOra 0 (WFQ.init c4wCfg) = some s2 ∧
      s2.lastF 0 =
        max (WFQ.init c4wCfg).systemVirtualTime ((WFQ.init c4wCfg).lastF 0) +
          ((c4wOra (WFQ.init c4wCfg).draws).2 : Rat) /
            (c4wCfg.sources.getD 0 dfltSource).weight := by
  rcases hs : WFQ.handleArrivalEvent c4wCfg c4wOra 0 (WFQ.init c4wCfg) with _ | s2
  · have hsm : (WFQ.handleArrivalEvent c4wCfg c4wOra 0 (WFQ.init c4wCfg)).isSome = true := by
      decide
    rw [hs] at hsm
    exact Bool.noConfusion hsm
  · exact ⟨s2, rfl, (c4_vft_formula c4wCfg c4wOra 0 (WFQ.init c4wCfg) s2 hs).1⟩

/-! ## Claim C5 -/

def c5Cfg : Config := ⟨1, 10, 1, 0, [⟨0, 1, 0, 0, 1, 0, 2⟩]⟩

def c5Ora : Oracle := fun _ => (1, 5)

/-- C5: with `bufferSize = 0`, FCFS indeed drops every generated packet
(here 2 generated, 2 dropped, 0 transmitted, never any buffered packet); but
the WFQ arrival handler, on its very first arrival, takes the drop branch
with an *empty* buffer and evaluates `packetBuffer.top()` of an empty
`std::priority_queue` — undefined behaviour (`none` in the embedding).  This
refutes the claim's assertion that the WFQ arrival handler never accesses an
empty buffer's minimum element: the spec describes the intent, the code has
the bug. -/
theorem c5_buffer_zero :
    (WFQ.runFuel c5Cfg c5Ora 2 (WFQ.init c5Cfg)).isSome = false ∧
    ((FCFS.runFuel c5Cfg c5Ora 5 (FCFS.init c5Cfg)).stats 0).packetsGenerated = 2 ∧
    ((FCFS.runFuel c5Cfg c5Ora 5 (FCFS.init c5Cfg)).stats 0).packetsDropped = 2 ∧
    ((FCFS.runFuel c5Cfg c5Ora 5 (FCFS.init c5Cfg)).stats 0).packetsTransmitted = 0 ∧
    (FCFS.runFuel c5Cfg c5Ora 5 (FCFS.init c5Cfg)).eventQueue = [] ∧
    (FCFS.runFuel c5Cfg c5Ora 5 (FCFS.init c5Cfg)).buffer = [] := by
  decide

/-! ## Claim C6 -/

/-- A field extracted from a line of whitespace-separated numeric tokens.  A
field the C++ stream fails to extract (missing, or non-numeric — extraction
failure) is value-initialized to 0 (`operator>>` since C++11), modelled by
reading past the end of the token list. -/
def readField (line : List Rat) (k : Nat) : Rat := line.getD k 0

/-- One source line (fcfs_simulator.cpp:162-171, wfq_simulator.cpp:197-206):
`rate minSize maxSize weight startFrac endFrac`; the activation window is
the fractional multipliers scaled by the horizon. -/
def parseSource (i : Nat) (T : Rat) (line : List Rat) : Source :=
  { id := i, packetRate := readField line 0, minSize := readField line 1,
    maxSize := readField line 2, weight := readField line 3,
    startTime := readField line 4 * T, endTime := readField line 5 * T }

/-- Integer extraction from a field: `operator>>` into an integral type
(`int numSources`, `size_t bufferSize`) reads the integral prefix of the
token, i.e. truncates the value toward zero. -/
def truncField (line : List Rat) (k : Nat) : Int :=
  if readField line k < 0 then ⌈readField line k⌉ else ⌊readField line k⌋

/-- `loadConfig` (fcfs_simulator.cpp:149-173, wfq_simulator.cpp:184-208) on a
file abstracted as numeric tokens per line.  It throws for a missing first
line ("Empty config file."), for a negative `numSources` — the `int` is
converted to a huge `size_t` by `stats.resize(numSources)`
(fcfs_simulator.cpp:160, wfq_simulator.cpp:195), which throws
`std::length_error` — and for fewer source lines than `numSources`
("Missing source configurations.").  It performs no range validation of any
field: in particular a negative `bufferSize` is not an error but wraps
modulo 2^64 when extracted into the `size_t`. -/
def loadConfig (lines : List (List Rat)) : Except String Config :=
  match lines with
  | [] => .error "Empty config file."
  | hd :: rest =>
    if truncField hd 0 < 0 then .error "length_error"
    else if rest.length < (truncField hd 0).toNat then
      .error "Missing source configurations."
    else .ok { numSources := (truncField hd 0).toNat, simulationTime := readField hd 1,
               linkCapacity := readField hd 2,
               bufferSize := (truncField hd 3 % (2 ^ 64 : Int)).toNat,
               sources := (List.range (truncField hd 0).toNat).map fun i =>
                 parseSource i (readField hd 1) (rest.getD i []) }

theorem loadConfig_cons (hd : List Rat) (rest : List (List Rat)) :
    loadConfig (hd :: rest) =
      if truncField hd 0 < 0 then .error "length_error"
      else if rest.length < (truncField hd 0).toNat then
        .error "Missing source configurations."
      else .ok { numSources := (truncField hd 0).toNat, simulationTime := readField hd 1,
                 linkCapacity := readField hd 2,
                 bufferSize := (truncField hd 3 % (2 ^ 64 : Int)).toNat,
                 sources := (List.range (truncField hd 0).toNat).map fun i =>
                   parseSource i (readField hd 1) (rest.getD i []) } := rfl

/-- C6 (amended): configuration loading reports an error exactly when the
file is empty, the `numSources` field is negative (`stats.resize` throws
`std::length_error` on the int-to-size_t converted value), or the file has
fewer source lines than `numSources`.  Out-of-range values
(`minSize > maxSize`, `linkCapacity ≤ 0`, `endFrac < startFrac`, a negative
`bufferSize`, which silently wraps modulo 2^64) and missing/non-numeric
fields are accepted without validation, and the simulator then starts. -/
theorem c6_loadConfig_amended (lines : List (List Rat)) :
    (∃ e, loadConfig lines = .error e) ↔
      (lines = [] ∨ ∃ hd rest, lines = hd :: rest ∧
        (truncField hd 0 < 0 ∨ rest.length < (truncField hd 0).toNat)) := by
  rcases lines with _ | ⟨hd, rest⟩
  · exact ⟨fun _ => Or.inl rfl, fun _ => ⟨"Empty config file.", rfl⟩⟩
  · by_cases hn : truncField hd 0 < 0
    · refine ⟨fun _ => Or.inr ⟨hd, rest, rfl, Or.inl hn⟩, fun _ => ⟨"length_error", ?_⟩⟩
      rw [loadConfig_cons, if_pos hn]
    · by_cases hc : rest.length < (truncField hd 0).toNat
      · refine ⟨fun _ => Or.inr ⟨hd, rest, rfl, Or.inr hc⟩,
          fun _ => ⟨"Missing source configurations.", ?_⟩⟩
        rw [loadConfig_cons, if_neg hn, if_pos hc]
      · constructor
        · rintro ⟨e, he⟩
          rw [loadConfig_cons, if_neg hn, if_neg hc] at he
          cases he
        · rintro (h | ⟨hd2, rest2, heq, h2⟩)
          · exact absurd h (List.cons_ne_nil hd rest)
          · injection heq with h5 h6
            subst h5
            subst h6
            rcases h2 with h2 | h2
            · exact absurd h2 hn
            · exact absurd h2 hc

def c6cLines : List (List Rat) := [[1, 10, 1, 5], [1, 5, 3, 1, 0, 1]]

def c6cCfg : Config := ⟨1, 10, 1, 5, [⟨0, 1, 5, 3, 1, 0, 10⟩]⟩

/-- C6 counterexample: a configuration whose source line carries
`minSize = 5 > maxSize = 3` loads without any error, and the simulator then
starts: the FCFS run over the loaded configuration enters the loop and
processes an arrival (1 packet generated). -/
theorem c6_counterexample :
    (loadConfig c6cLines).toOption = some c6cCfg ∧
    ((FCFS.runFuel c6cCfg (fun _ => (100, 4)) 3 (FCFS.init c6cCfg)).stats 0).packetsGenerated
      = 1 := by
  decide

/-! ## Pending-departure bookkeeping for the utilization bound (C9/C10) -/

/-- The pending departure events of a queue, as (time, packet) pairs in
queue order. -/
def depList (q : List Event) : List (Rat × Packet) :=
  q.filterMap fun e => match e with | .departure t p => some (t, p) | .arrival _ _ => none

theorem depList_cons_arrival (t : Rat) (j : Nat) (q : List Event) :
    depList (.arrival t j :: q) = depList q := rfl

theorem depList_cons_departure (t : Rat) (p : Packet) (q : List Event) :
    depList (.departure t p :: q) = (t, p) :: depList q := rfl

theorem depList_insert_arrival (t : Rat) (j : Nat) (q : List Event) :
    depList (insertSorted Event.time (.arrival t j) q) = depList q := by
  induction q with
  | nil => rfl
  | cons e q ih =>
    unfold insertSorted
    split
    · rfl
    · rcases e with ⟨t2, j2⟩ | ⟨t2, p2⟩
      · rw [depList_cons_arrival, depList_cons_arrival, ih]
      · rw [depList_cons_departure, depList_cons_departure, ih]

theorem depList_insert_departure (t : Rat) (p : Packet) (q : List Event)
    (h : depList q = []) :
    depList (insertSorted Event.time (.departure t p) q) = [(t, p)] := by
  induction q with
  | nil => rfl
  | cons e q ih =>
    unfold insertSorted
    split
    · rw [depList_cons_departure, h]
    · rcases e with ⟨t2, j2⟩ | ⟨t2, p2⟩
      · rw [depList_cons_arrival]
        rw [depList_cons_arrival] at h
        exact ih h
      · rw [depList_cons_departure] at h
        cases h

theorem depList_mem {d : Rat} {p : Packet} {q : List Event}
    (h : (d, p) ∈ depList q) : Event.departure d p ∈ q := by
  induction q with
  | nil => cases h
  | cons e q ih =>
    rcases e with ⟨t2, j2⟩ | ⟨t2, p2⟩
    · rw [depList_cons_arrival] at h
      exact List.mem_cons_of_mem _ (ih h)
    · rw [depList_cons_departure] at h
      rcases List.mem_cons.mp h with heq | h
      · rw [(Prod.mk.injEq _ _ _ _).mp heq |>.1, (Prod.mk.injEq _ _ _ _).mp heq |>.2]
        exact List.mem_cons_self _ _
      · exact List.mem_cons_of_mem _ (ih h)

theorem depList_init (cfg : Config) (sources : List Source) :
    depList
      (sources.foldl
        (fun q src => scheduleEvent cfg.simulationTime (.arrival src.startTime src.id) q) []) = [] := by
  have main : ∀ (l : List Source) (q : List Event), depList q = [] →
      depList
        (l.foldl (fun q src => scheduleEvent cfg.simulationTime (.arrival src.startTime src.id) q) q) = [] := by
    intro l
    induction l with
    | nil => intro q hq; exact hq
    | cons src l ih =>
      intro q hq
      refine ih _ ?_
      dsimp only
      unfold scheduleEvent
      split
      · rw [depList_insert_arrival]
        exact hq
      · exact hq
  exact main sources [] rfl

/-- Every queue event satisfies `P` after an initialization fold, given that
all initial arrivals do. -/
theorem mem_init_fold {cfg : Config} {sources : List Source} {P : Event → Prop}
    (hP : ∀ src ∈ sources, P (.arrival src.startTime src.id)) :
    ∀ e ∈ sources.foldl
      (fun q src => scheduleEvent cfg.simulationTime (.arrival src.startTime src.id) q) [],
      P e := by
  have main : ∀ (l : List Source) (q : List Event),
      (∀ src ∈ l, P (.arrival src.startTime src.id)) → (∀ e ∈ q, P e) →
      ∀ e ∈ l.foldl
        (fun q src => scheduleEvent cfg.simulationTime (.arrival src.startTime src.id) q) q,
        P e := by
    intro l
    induction l with
    | nil => intro q _ hq; exact hq
    | cons src l ih =>
      intro q hl hq
      refine ih _ (fun x hx => hl x (List.mem_cons_of_mem _ hx)) ?_
      intro e he
      dsimp only at he
      unfold scheduleEvent at he
      split at he
      · rcases mem_insertSorted.mp he with rfl | he
        · exact hl src (List.mem_cons_self _ _)
        · exact hq e he
      · exact hq e he
  exact main sources [] hP (by intro e he; cases he)

theorem sorted_init (cfg : Config) (sources : List Source) :
    (sources.foldl
      (fun q src => scheduleEvent cfg.simulationTime (.arrival src.startTime src.id) q)
      []).Pairwise fun a b => a.time ≤ b.time := by
  have main : ∀ (l : List Source) (q : List Event),
      q.Pairwise (fun a b => a.time ≤ b.time) →
      (l.foldl
        (fun q src => scheduleEvent cfg.simulationTime (.arrival src.startTime src.id) q)
        q).Pairwise fun a b => a.time ≤ b.time := by
    intro l
    induction l with
    | nil => intro q hq; exact hq
    | cons src l ih =>
      intro q hq
      refine ih _ ?_
      dsimp only
      unfold scheduleEvent
      split
      · exact sorted_insertSorted Event.time _ hq
      · exact hq
  exact main sources [] (List.Pairwise.nil)

/-- Total transmitted bytes as accumulated over sources by `printResults`
(fcfs_simulator.cpp:207-217, wfq_simulator.cpp:241-252). -/
def totB (cfg : Config) (st : Nat → SourceStats) : Rat :=
  ∑ i ∈ Finset.range cfg.numSources, (st i).bytesTransmitted

theorem bytes_bumpGen (st : Nat → SourceStats) (j i : Nat) :
    (bumpGen st j i).bytesTransmitted = (st i).bytesTransmitted := by
  by_cases h : i = j
  · subst h; rw [bumpGen_self]
  · rw [bumpGen_ne _ _ _ h]

theorem bytes_bumpDrop (st : Nat → SourceStats) (j i : Nat) :
    (bumpDrop st j i).bytesTransmitted = (st i).bytesTransmitted := by
  by_cases h : i = j
  · subst h; rw [bumpDrop_self]
  · rw [bumpDrop_ne _ _ _ h]

theorem totB_bumpGen (cfg : Config) (st : Nat → SourceStats) (j : Nat) :
    totB cfg (bumpGen st j) = totB cfg st :=
  Finset.sum_congr rfl fun i _ => bytes_bumpGen st j i

theorem totB_bumpDrop (cfg : Config) (st : Nat → SourceStats) (j : Nat) :
    totB cfg (bumpDrop st j) = totB cfg st :=
  Finset.sum_congr rfl fun i _ => bytes_bumpDrop st j i

theorem totB_addTrans_le (cfg : Config) (st : Nat → SourceStats) (j : Nat) (size : Int)
    (delay : Rat) (hsz : 0 ≤ (size : Rat)) :
    totB cfg (addTrans st j size delay) ≤ totB cfg st + (size : Rat) := by
  have hterm : ∀ i ∈ Finset.range cfg.numSources,
      (addTrans st j size delay i).bytesTransmitted ≤
        (st i).bytesTransmitted + (if i = j then (size : Rat) else 0) := by
    intro i _
    by_cases h : i = j
    · subst h
      rw [addTrans_self, if_pos rfl]
    · rw [addTrans_ne _ _ _ _ _ h, if_neg h]
      linarith
  calc totB cfg (addTrans st j size delay)
      ≤ ∑ i ∈ Finset.range cfg.numSources,
          ((st i).bytesTransmitted + (if i = j then (size : Rat) else 0)) :=
        Finset.sum_le_sum hterm
    _ = totB cfg st + ∑ i ∈ Finset.range cfg.numSources,
          (if i = j then (size : Rat) else 0) := by
        rw [Finset.sum_add_distrib]
        rfl
    _ ≤ totB cfg st + (size : Rat) := by
        rw [Finset.sum_ite_eq' (Finset.range cfg.numSources) j fun _ => (size : Rat)]
        split
        · exact le_refl _
        · linarith

theorem bytes_addTrans_nonneg (st : Nat → SourceStats) (j : Nat) (size : Int)
    (delay : Rat) (hsz : 0 ≤ (size : Rat))
    (h : ∀ i, 0 ≤ (st i).bytesTransmitted) (i : Nat) :
    0 ≤ (addTrans st j size delay i).bytesTransmitted := by
  by_cases hij : i = j
  · subst hij
    rw [addTrans_self]
    have := h i
    dsimp only
    linarith
  · rw [addTrans_ne _ _ _ _ _ hij]
    exact h i

theorem totB_nonneg (cfg : Config) (st : Nat → SourceStats)
    (h : ∀ i, 0 ≤ (st i).bytesTransmitted) : 0 ≤ totB cfg st :=
  Finset.sum_nonneg fun i _ => h i

/-- Validity of the configuration fields, as the spec's configuration
interface requires (positive capacity, nonnegative horizon and start
times). -/
structure CfgOk (cfg : Config) : Prop where
  cap_pos : 0 < cfg.linkCapacity
  horizon_nonneg : 0 ≤ cfg.simulationTime
  starts_nonneg : ∀ src ∈ cfg.sources, 0 ≤ src.startTime

/-- Validity of the oracle draws: exponential interarrival delays are
nonnegative, uniform packet sizes are nonnegative. -/
structure OraOk (ora : Oracle) : Prop where
  delay_nonneg : ∀ k, 0 ≤ (ora k).1
  size_nonneg : ∀ k, 0 ≤ (ora k).2

namespace FCFS

/-- Run-time invariant backing the utilization bound: queued events are
sorted, within `[currentTime, T]`; at most one departure is pending; the
transmitted bytes are covered by capacity · elapsed time, with the pending
packet's bytes pre-accounted against its departure instant. -/
structure TimeInv (cfg : Config) (s : State) : Prop where
  horizon : timesLe cfg.simulationTime s.eventQueue
  sorted : s.eventQueue.Pairwise fun a b => a.time ≤ b.time
  lower : ∀ e ∈ s.eventQueue, s.currentTime ≤ e.time
  now_le : s.currentTime ≤ cfg.simulationTime
  now_nonneg : 0 ≤ s.currentTime
  buf_nonneg : ∀ p ∈ s.buffer, 0 ≤ (p.size : Rat)
  bytes_nonneg : ∀ i, 0 ≤ (s.stats i).bytesTransmitted
  idle_pend : s.linkBusy = false → depList s.eventQueue = []
  pend : (depList s.eventQueue = [] ∧
      totB cfg s.stats ≤ cfg.linkCapacity * s.currentTime) ∨
    (∃ d p, depList s.eventQueue = [(d, p)] ∧ s.linkBusy = true ∧ 0 ≤ (p.size : Rat) ∧
      totB cfg s.stats + (p.size : Rat) ≤ cfg.linkCapacity * d)

theorem depList_nextQueue (cfg : Config) (ora : Oracle) (srcID : Nat) (s : State) :
    depList (nextQueue cfg ora srcID s) = depList s.eventQueue := by
  unfold nextQueue
  split
  · unfold scheduleEvent
    split
    · exact depList_insert_arrival _ _ _
    · rfl
  · rfl

theorem sorted_nextQueue (cfg : Config) (ora : Oracle) (srcID : Nat) {s : State}
    (h : s.eventQueue.Pairwise fun a b => a.time ≤ b.time) :
    (nextQueue cfg ora srcID s).Pairwise fun a b => a.time ≤ b.time := by
  unfold nextQueue
  split
  · unfold scheduleEvent
    split
    · exact sorted_insertSorted Event.time _ h
    · exact h
  · exact h

theorem lower_nextQueue (cfg : Config) (ora : Oracle) (srcID : Nat) {s : State}
    (hΔ : 0 ≤ (ora s.draws).1) (h : ∀ e ∈ s.eventQueue, s.currentTime ≤ e.time) :
    ∀ e ∈ nextQueue cfg ora srcID s, s.currentTime ≤ e.time := by
  unfold nextQueue
  split
  · unfold scheduleEvent
    split
    · intro e he
      rcases mem_insertSorted.mp he with rfl | he
      · show s.currentTime ≤ s.currentTime + (ora s.draws).1
        linarith
      · exact h e he
    · exact h
  · exact h

theorem timeInv_startNext (cfg : Config) {s : State} (hc : CfgOk cfg)
    (h : TimeInv cfg s) : TimeInv cfg (startNextTransmission cfg s) := by
  cases hb : s.linkBusy with
  | true => rw [startNext_busy cfg s hb]; exact h
  | false =>
    rcases hbuf : s.buffer with _ | ⟨p, rest⟩
    · rw [startNext_idle_empty cfg s hb hbuf]; exact h
    · have hpend := h.idle_pend hb
      have hleft : totB cfg s.stats ≤ cfg.linkCapacity * s.currentTime := by
        rcases h.pend with ⟨_, hbound⟩ | ⟨d, p2, _, hlb, _, _⟩
        · exact hbound
        · rw [hb] at hlb; cases hlb
      have hp0 : 0 ≤ (p.size : Rat) :=
        h.buf_nonneg p (by rw [hbuf]; exact List.mem_cons_self _ _)
      have hrest : ∀ q ∈ rest, 0 ≤ ((q : Packet).size : Rat) := fun q hq =>
        h.buf_nonneg q (by rw [hbuf]; exact List.mem_cons_of_mem _ hq)
      by_cases hd : s.currentTime + (p.size : Rat) / cfg.linkCapacity ≤ cfg.simulationTime
      · rw [startNext_sched cfg s p rest hb hbuf hd]
        have hC : cfg.linkCapacity ≠ 0 := ne_of_gt hc.cap_pos
        have hmul : cfg.linkCapacity * ((p.size : Rat) / cfg.linkCapacity) = (p.size : Rat) := by
          field_simp
        refine ⟨?_, ?_, ?_, h.now_le, h.now_nonneg, hrest, h.bytes_nonneg, ?_, ?_⟩
        · intro e he
          rcases mem_insertSorted.mp he with rfl | he
          · exact hd
          · exact h.horizon e he
        · exact sorted_insertSorted Event.time _ h.sorted
        · intro e he
          rcases mem_insertSorted.mp he with rfl | he
          · show s.currentTime ≤ s.currentTime + (p.size : Rat) / cfg.linkCapacity
            have : 0 ≤ (p.size : Rat) / cfg.linkCapacity :=
              div_nonneg hp0 (le_of_lt hc.cap_pos)
            linarith
          · exact h.lower e he
        · intro hx
          exact absurd hx (by simp)
        · refine Or.inr ⟨s.currentTime + (p.size : Rat) / cfg.linkCapacity, p,
            depList_insert_departure _ _ _ hpend, rfl, hp0, ?_⟩
          have : cfg.linkCapacity * (s.currentTime + (p.size : Rat) / cfg.linkCapacity) =
              cfg.linkCapacity * s.currentTime + (p.size : Rat) := by
            rw [mul_add, hmul]
          rw [this]
          linarith
      · rw [startNext_lost cfg s p rest hb hbuf hd]
        refine ⟨h.horizon, h.sorted, h.lower, h.now_le, h.now_nonneg, hrest,
          h.bytes_nonneg, ?_, Or.inl ⟨hpend, hleft⟩⟩
        intro hx
        exact absurd hx (by simp)

theorem timeInv_pop_arrival (cfg : Config) {s : State} {t : Rat} {j : Nat}
    {q : List Event} (hc : CfgOk cfg) (h : TimeInv cfg s)
    (hq : s.eventQueue = .arrival t j :: q) :
    TimeInv cfg { s with currentTime := t, eventQueue := q } := by
  have hht : s.currentTime ≤ t := by
    have := h.lower _ (by rw [hq]; exact List.mem_cons_self _ _)
    exact this
  have hsorted := h.sorted
  rw [hq] at hsorted
  rcases List.pairwise_cons.mp hsorted with ⟨hhead, htail⟩
  have hdl : depList s.eventQueue = depList q := by rw [hq, depList_cons_arrival]
  refine ⟨?_, htail, ?_, ?_, le_trans h.now_nonneg hht, h.buf_nonneg, h.bytes_nonneg,
    ?_, ?_⟩
  · intro e he
    exact h.horizon e (by rw [hq]; exact List.mem_cons_of_mem _ he)
  · intro e he
    exact hhead e he
  · exact h.horizon _ (by rw [hq]; exact List.mem_cons_self _ _)
  · intro hlb
    have := h.idle_pend hlb
    rw [hdl] at this
    exact this
  · rcases h.pend with ⟨hnil, hbound⟩ | ⟨d, p, hone, hlb, hp0, hbound⟩
    · refine Or.inl ⟨by rw [← hdl]; exact hnil, ?_⟩
      have : cfg.linkCapacity * s.currentTime ≤ cfg.linkCapacity * t :=
        mul_le_mul_of_nonneg_left hht (le_of_lt hc.cap_pos)
      dsimp only
      linarith
    · exact Or.inr ⟨d, p, by rw [← hdl]; exact hone, hlb, hp0, hbound⟩

theorem timeInv_arrival (cfg : Config) (ora : Oracle) (srcID : Nat) {s : State}
    (hc : CfgOk cfg) (ho : OraOk ora) (h : TimeInv cfg s) :
    TimeInv cfg (handleArrivalEvent cfg ora srcID s) := by
  have hmain : ∀ buffer2, (∀ p ∈ buffer2, 0 ≤ ((p : Packet).size : Rat)) →
      ∀ st2 : Nat → SourceStats,
      (∀ i, (st2 i).bytesTransmitted = (s.stats i).bytesTransmitted) →
      ∀ dl2 : List Packet,
      TimeInv cfg
        { s with eventQueue := nextQueue cfg ora srcID s,
                 nextPacketId := s.nextPacketId + 1, draws := s.draws + 1,
                 stats := st2, buffer := buffer2, dropLog := dl2 } := by
    intro buffer2 hbuf2 st2 hst2 dl2
    have htot : totB cfg st2 = totB cfg s.stats :=
      Finset.sum_congr rfl fun i _ => hst2 i
    refine ⟨timesLe_nextQueue cfg ora srcID h.horizon,
      sorted_nextQueue cfg ora srcID h.sorted,
      lower_nextQueue cfg ora srcID (ho.delay_nonneg _) h.lower,
      h.now_le, h.now_nonneg, hbuf2, ?_, ?_, ?_⟩
    · intro i
      rw [hst2 i]
      exact h.bytes_nonneg i
    · intro hlb
      rw [depList_nextQueue]
      exact h.idle_pend hlb
    · rcases h.pend with ⟨hnil, hbound⟩ | ⟨d, p, hone, hlb, hp0, hbound⟩
      · exact Or.inl ⟨by rw [depList_nextQueue]; exact hnil, by rw [htot]; exact hbound⟩
      · exact Or.inr ⟨d, p, by rw [depList_nextQueue]; exact hone, hlb, hp0,
          by rw [htot]; exact hbound⟩
  by_cases hB : s.buffer.length < cfg.bufferSize
  · rw [arrival_enq cfg ora srcID s hB]
    refine timeInv_startNext cfg hc (hmain _ ?_ _ (fun i => bytes_bumpGen _ _ _) _)
    intro p hp
    rcases List.mem_append.mp hp with hp | hp
    · exact h.buf_nonneg p hp
    · rcases List.mem_singleton.mp hp with rfl
      show (0 : Rat) ≤ ((ora s.draws).2 : Rat)
      exact_mod_cast ho.size_nonneg _
  · rw [arrival_drop cfg ora srcID s hB]
    refine timeInv_startNext cfg hc (hmain _ h.buf_nonneg _ ?_ _)
    intro i
    rw [bytes_bumpDrop, bytes_bumpGen]

theorem timeInv_runFuel (cfg : Config) (ora : Oracle) (n : Nat) {s : State}
    (hc : CfgOk cfg) (ho : OraOk ora) (h : TimeInv cfg s) :
    TimeInv cfg (runFuel cfg ora n s) := by
  induction n generalizing s with
  | zero => exact h
  | succ n ih =>
    rcases hq : s.eventQueue with _ | ⟨e, q⟩
    · rw [runFuel_nil cfg ora n s hq]; exact h
    · have hle : e.time ≤ cfg.simulationTime :=
        h.horizon e (by rw [hq]; exact List.mem_cons_self _ _)
      have hnb : ¬ cfg.simulationTime < e.time := not_lt.mpr hle
      rcases e with ⟨t, j⟩ | ⟨t, p⟩
      · rw [runFuel_arrival cfg ora n s t j q hq hnb]
        exact ih (timeInv_arrival cfg ora j hc ho (timeInv_pop_arrival cfg hc h hq))
      · rw [runFuel_departure cfg ora n s t p q hq hnb]
        refine ih ?_
        have hdl : depList s.eventQueue = (t, p) :: depList q := by
          rw [hq, depList_cons_departure]
        rcases h.pend with ⟨hnil, _⟩ | ⟨d, p2, hone, _, hp0, hbound⟩
        · rw [hdl] at hnil; cases hnil
        · rw [hdl] at hone
          have hinj := List.cons.injEq (t, p) (depList q) (d, p2) [] ▸ hone
          rw [List.cons.injEq] at hone
          obtain ⟨hpair, htail⟩ := hone
          obtain ⟨rfl, rfl⟩ : t = d ∧ p = p2 := Prod.mk.injEq _ _ _ _ ▸ hpair
          have hht : s.currentTime ≤ t := by
            have := h.lower _ (by rw [hq]; exact List.mem_cons_self _ _)
            exact this
          have hsorted := h.sorted
          rw [hq] at hsorted
          rcases List.pairwise_cons.mp hsorted with ⟨hhead, htail2⟩
          rw [departure_eq]
          refine timeInv_startNext cfg hc
            ⟨?_, htail2, ?_, hle, le_trans h.now_nonneg hht, h.buf_nonneg, ?_, ?_, ?_⟩
          · intro e he
            exact h.horizon e (by rw [hq]; exact List.mem_cons_of_mem _ he)
          · intro e he
            exact hhead e he
          · exact fun i => bytes_addTrans_nonneg _ _ _ _ hp0 h.bytes_nonneg i
          · intro _
            exact htail
          · refine Or.inl ⟨htail, ?_⟩
            have := totB_addTrans_le cfg s.stats p.sourceID p.size
              (t - p.arrivalTime) hp0
            dsimp only
            linarith

theorem timeInv_init (cfg : Config) (hc : CfgOk cfg) : TimeInv cfg (init cfg) := by
  refine ⟨timesLe_init cfg cfg.sources, sorted_init cfg cfg.sources, ?_,
    hc.horizon_nonneg, le_refl 0, ?_, fun i => le_refl 0, fun _ => depList_init cfg cfg.sources,
    Or.inl ⟨depList_init cfg cfg.sources, ?_⟩⟩
  · exact mem_init_fold fun src hs => hc.starts_nonneg src hs
  · intro p hp
    cases hp
  · simp [totB, init, SourceStats.zero]

/-- The utilization bound extracted from the invariant. -/
theorem totB_le_capacity (cfg : Config) (ora : Oracle) (n : Nat) (hc : CfgOk cfg)
    (ho : OraOk ora) :
    totB cfg (runFuel cfg ora n (init cfg)).stats ≤
      cfg.linkCapacity * cfg.simulationTime := by
  have h := timeInv_runFuel cfg ora n hc ho (timeInv_init cfg hc)
  rcases h.pend with ⟨_, hbound⟩ | ⟨d, p, hone, _, hp0, hbound⟩
  · calc totB cfg (runFuel cfg ora n (init cfg)).stats
        ≤ cfg.linkCapacity * (runFuel cfg ora n (init cfg)).currentTime := hbound
      _ ≤ cfg.linkCapacity * cfg.simulationTime :=
        mul_le_mul_of_nonneg_left h.now_le (le_of_lt hc.cap_pos)
  · have hdT : d ≤ cfg.simulationTime := by
      have hmem := depList_mem (by rw [hone]; exact List.mem_cons_self _ _)
      exact h.horizon _ hmem
    have : cfg.linkCapacity * d ≤ cfg.linkCapacity * cfg.simulationTime :=
      mul_le_mul_of_nonneg_left hdT (le_of_lt hc.cap_pos)
    linarith

end FCFS

namespace WFQ

/-- Run-time invariant backing the utilization bound (WFQ machine); same
content as `FCFS.TimeInv`. -/
structure TimeInv (cfg : Config) (s : State) : Prop where
  horizon : timesLe cfg.simulationTime s.eventQueue
  sorted : s.eventQueue.Pairwise fun a b => a.time ≤ b.time
  lower : ∀ e ∈ s.eventQueue, s.currentTime ≤ e.time
  now_le : s.currentTime ≤ cfg.simulationTime
  now_nonneg : 0 ≤ s.currentTime
  buf_nonneg : ∀ p ∈ s.buffer, 0 ≤ (p.size : Rat)
  bytes_nonneg : ∀ i, 0 ≤ (s.stats i).bytesTransmitted
  idle_pend : s.linkBusy = false → depList s.eventQueue = []
  pend : (depList s.eventQueue = [] ∧
      totB cfg s.stats ≤ cfg.linkCapacity * s.currentTime) ∨
    (∃ d p, depList s.eventQueue = [(d, p)] ∧ s.linkBusy = true ∧ 0 ≤ (p.size : Rat) ∧
      totB cfg s.stats + (p.size : Rat) ≤ cfg.linkCapacity * d)

theorem w_depList_nextQueue (cfg : Config) (ora : Oracle) (srcID : Nat) (s : State) :
    depList (nextQueue cfg ora srcID s) = depList s.eventQueue := by
  unfold nextQueue
  split
  · unfold scheduleEvent
    split
    · exact depList_insert_arrival _ _ _
    · rfl
  · rfl

theorem w_sorted_nextQueue (cfg : Config) (ora : Oracle) (srcID : Nat) {s : State}
    (h : s.eventQueue.Pairwise fun a b => a.time ≤ b.time) :
    (nextQueue cfg ora srcID s).Pairwise fun a b => a.time ≤ b.time := by
  unfold nextQueue
  split
  · unfold scheduleEvent
    split
    · exact sorted_insertSorted Event.time _ h
    · exact h
  · exact h

theorem w_lower_nextQueue (cfg : Config) (ora : Oracle) (srcID : Nat) {s : State}
    (hΔ : 0 ≤ (ora s.draws).1) (h : ∀ e ∈ s.eventQueue, s.currentTime ≤ e.time) :
    ∀ e ∈ nextQueue cfg ora srcID s, s.currentTime ≤ e.time := by
  unfold nextQueue
  split
  · unfold scheduleEvent
    split
    · intro e he
      rcases mem_insertSorted.mp he with rfl | he
      · show s.currentTime ≤ s.currentTime + (ora s.draws).1
        linarith
      · exact h e he
    · exact h
  · exact h

theorem w_timeInv_startNext (cfg : Config) {s : State} (hc : CfgOk cfg)
    (h : TimeInv cfg s) : TimeInv cfg (startNextTransmission cfg s) := by
  cases hb : s.linkBusy with
  | true => rw [w_startNext_busy cfg s hb]; exact h
  | false =>
    rcases hbuf : s.buffer with _ | ⟨p, rest⟩
    · rw [w_startNext_idle_empty cfg s hb hbuf]; exact h
    · have hpend := h.idle_pend hb
      have hleft : totB cfg s.stats ≤ cfg.linkCapacity * s.currentTime := by
        rcases h.pend with ⟨_, hbound⟩ | ⟨d, p2, _, hlb, _, _⟩
        · exact hbound
        · rw [hb] at hlb; cases hlb
      have hp0 : 0 ≤ (p.size : Rat) :=
        h.buf_nonneg p (by rw [hbuf]; exact List.mem_cons_self _ _)
      have hrest : ∀ q ∈ rest, 0 ≤ ((q : Packet).size : Rat) := fun q hq =>
        h.buf_nonneg q (by rw [hbuf]; exact List.mem_cons_of_mem _ hq)
      by_cases hd : s.currentTime + (p.size : Rat) / cfg.linkCapacity ≤ cfg.simulationTime
      · rw [w_startNext_sched cfg s p rest hb hbuf hd]
        have hC : cfg.linkCapacity ≠ 0 := ne_of_gt hc.cap_pos
        have hmul : cfg.linkCapacity * ((p.size : Rat) / cfg.linkCapacity) = (p.size : Rat) := by
          field_simp
        refine ⟨?_, ?_, ?_, h.now_le, h.now_nonneg, hrest, h.bytes_nonneg, ?_, ?_⟩
        · intro e he
          rcases mem_insertSorted.mp he with rfl | he
          · exact hd
          · exact h.horizon e he
        · exact sorted_insertSorted Event.time _ h.sorted
        · intro e he
          rcases mem_insertSorted.mp he with rfl | he
          · show s.currentTime ≤ s.currentTime + (p.size : Rat) / cfg.linkCapacity
            have : 0 ≤ (p.size : Rat) / cfg.linkCapacity :=
              div_nonneg hp0 (le_of_lt hc.cap_pos)
            linarith
          · exact h.lower e he
        · intro hx
          exact absurd hx (by simp)
        · refine Or.inr ⟨s.currentTime + (p.size : Rat) / cfg.linkCapacity, p,
            depList_insert_departure _ _ _ hpend, rfl, hp0, ?_⟩
          have : cfg.linkCapacity * (s.currentTime + (p.size : Rat) / cfg.linkCapacity) =
              cfg.linkCapacity * s.currentTime + (p.size : Rat) := by
            rw [mul_add, hmul]
          rw [this]
          linarith
      · rw [w_startNext_lost cfg s p rest hb hbuf hd]
        refine ⟨h.horizon, h.sorted, h.lower, h.now_le, h.now_nonneg, hrest,
          h.bytes_nonneg, ?_, Or.inl ⟨hpend, hleft⟩⟩
        intro hx
        exact absurd hx (by simp)

theorem w_timeInv_pop_arrival (cfg : Config) {s : State} {t : Rat} {j : Nat}
    {q : List Event} (hc : CfgOk cfg) (h : TimeInv cfg s)
    (hq : s.eventQueue = .arrival t j :: q) :
    TimeInv cfg { s with currentTime := t, eventQueue := q } := by
  have hht : s.currentTime ≤ t := by
    have := h.lower _ (by rw [hq]; exact List.mem_cons_self _ _)
    exact this
  have hsorted := h.sorted
  rw [hq] at hsorted
  rcases List.pairwise_cons.mp hsorted with ⟨hhead, htail⟩
  have hdl : depList s.eventQueue = depList q := by rw [hq, depList_cons_arrival]
  refine ⟨?_, htail, ?_, ?_, le_trans h.now_nonneg hht, h.buf_nonneg, h.bytes_nonneg,
    ?_, ?_⟩
  · intro e he
    exact h.horizon e (by rw [hq]; exact List.mem_cons_of_mem _ he)
  · intro e he
    exact hhead e he
  · exact h.horizon _ (by rw [hq]; exact List.mem_cons_self _ _)
  · intro hlb
    have := h.idle_pend hlb
    rw [hdl] at this
    exact this
  · rcases h.pend with ⟨hnil, hbound⟩ | ⟨d, p, hone, hlb, hp0, hbound⟩
    · refine Or.inl ⟨by rw [← hdl]; exact hnil, ?_⟩
      have : cfg.linkCapacity * s.currentTime ≤ cfg.linkCapacity * t :=
        mul_le_mul_of_nonneg_left hht (le_of_lt hc.cap_pos)
      dsimp only
      linarith
    · exact Or.inr ⟨d, p, by rw [← hdl]; exact hone, hlb, hp0, hbound⟩

theorem w_timeInv_arrival (cfg : Config) (ora : Oracle) (srcID : Nat) {s s2 : State}
    (hc : CfgOk cfg) (ho : OraOk ora)
    (hr : handleArrivalEvent cfg ora srcID s = some s2) (h : TimeInv cfg s) :
    TimeInv cfg s2 := by
  have hmain : ∀ buffer2, (∀ p ∈ buffer2, 0 ≤ ((p : Packet).size : Rat)) →
      ∀ st2 : Nat → SourceStats,
      (∀ i, (st2 i).bytesTransmitted = (s.stats i).bytesTransmitted) →
      ∀ (dl2 gl2 : List Packet) (lf2 : Nat → Rat),
      TimeInv cfg
        { s with eventQueue := nextQueue cfg ora srcID s,
                 nextPacketId := s.nextPacketId + 1, draws := s.draws + 1,
                 lastF := lf2, stats := st2, buffer := buffer2,
                 dropLog := dl2, genLog := gl2 } := by
    intro buffer2 hbuf2 st2 hst2 dl2 gl2 lf2
    have htot : totB cfg st2 = totB cfg s.stats :=
      Finset.sum_congr rfl fun i _ => hst2 i
    refine ⟨w_timesLe_nextQueue cfg ora srcID h.horizon,
      w_sorted_nextQueue cfg ora srcID h.sorted,
      w_lower_nextQueue cfg ora srcID (ho.delay_nonneg _) h.lower,
      h.now_le, h.now_nonneg, hbuf2, ?_, ?_, ?_⟩
    · intro i
      rw [hst2 i]
      exact h.bytes_nonneg i
    · intro hlb
      rw [w_depList_nextQueue]
      exact h.idle_pend hlb
    · rcases h.pend with ⟨hnil, hbound⟩ | ⟨d, p, hone, hlb, hp0, hbound⟩
      · exact Or.inl ⟨by rw [w_depList_nextQueue]; exact hnil, by rw [htot]; exact hbound⟩
      · exact Or.inr ⟨d, p, by rw [w_depList_nextQueue]; exact hone, hlb, hp0,
          by rw [htot]; exact hbound⟩
  have hnew : 0 ≤ ((newPacket cfg ora srcID s).size : Rat) := by
    show (0 : Rat) ≤ ((ora s.draws).2 : Rat)
    exact_mod_cast ho.size_nonneg _
  by_cases hB : s.buffer.length < cfg.bufferSize
  · rw [w_arrival_enq cfg ora srcID s hB] at hr
    obtain rfl := Option.some.inj hr
    refine w_timeInv_startNext cfg hc (hmain _ ?_ _ (fun i => bytes_bumpGen _ _ _) _ _ _)
    intro p hp
    rcases mem_insertSorted.mp hp with rfl | hp
    · exact hnew
    · exact h.buf_nonneg p hp
  · rcases hbuf : s.buffer with _ | ⟨d, rest⟩
    · rw [arrival_ub cfg ora srcID s hB hbuf] at hr
      cases hr
    · rw [arrival_dropmin cfg ora srcID s d rest hB hbuf] at hr
      obtain rfl := Option.some.inj hr
      refine w_timeInv_startNext cfg hc
        (hmain _ ?_ _ (fun i => by rw [bytes_bumpDrop, bytes_bumpGen]) _ _ _)
      intro p hp
      rcases mem_insertSorted.mp hp with rfl | hp
      · exact hnew
      · exact h.buf_nonneg p (by rw [hbuf]; exact List.mem_cons_of_mem _ hp)

theorem w_timeInv_runFuel (cfg : Config) (ora : Oracle) (n : Nat) {s s2 : State}
    (hc : CfgOk cfg) (ho : OraOk ora) (hr : runFuel cfg ora n s = some s2)
    (h : TimeInv cfg s) : TimeInv cfg s2 := by
  induction n generalizing s with
  | zero => obtain rfl := Option.some.inj hr; exact h
  | succ n ih =>
    rcases hq : s.eventQueue with _ | ⟨e, q⟩
    · rw [w_runFuel_nil cfg ora n s hq] at hr
      obtain rfl := Option.some.inj hr
      exact h
    · have hle : e.time ≤ cfg.simulationTime :=
        h.horizon e (by rw [hq]; exact List.mem_cons_self _ _)
      have hnb : ¬ cfg.simulationTime < e.time := not_lt.mpr hle
      rcases e with ⟨t, j⟩ | ⟨t, p⟩
      · rw [w_runFuel_arrival cfg ora n s t j q hq hnb] at hr
        rcases hh : handleArrivalEvent cfg ora j
            { s with currentTime := t, eventQueue := q } with _ | s3
        · rw [hh] at hr; cases hr
        · rw [hh] at hr
          exact ih hr (w_timeInv_arrival cfg ora j hc ho hh (w_timeInv_pop_arrival cfg hc h hq))
      · rw [w_runFuel_departure cfg ora n s t p q hq hnb] at hr
        refine ih hr ?_
        have hdl : depList s.eventQueue = (t, p) :: depList q := by
          rw [hq, depList_cons_departure]
        rcases h.pend with ⟨hnil, _⟩ | ⟨d, p2, hone, _, hp0x, hbound⟩
        · rw [hdl] at hnil; cases hnil
        · rw [hdl] at hone
          rw [List.cons.injEq] at hone
          obtain ⟨hpair, htail⟩ := hone
          obtain ⟨rfl, rfl⟩ : t = d ∧ p = p2 := Prod.mk.injEq _ _ _ _ ▸ hpair
          have hht : s.currentTime ≤ t := by
            have := h.lower _ (by rw [hq]; exact List.mem_cons_self _ _)
            exact this
          have hsorted := h.sorted
          rw [hq] at hsorted
          rcases List.pairwise_cons.mp hsorted with ⟨hhead, htail2⟩
          rw [w_departure_eq]
          refine w_timeInv_startNext cfg hc
            ⟨?_, htail2, ?_, hle, le_trans h.now_nonneg hht, h.buf_nonneg, ?_, ?_, ?_⟩
          · intro e he
            exact h.horizon e (by rw [hq]; exact List.mem_cons_of_mem _ he)
          · intro e he
            exact hhead e he
          · exact fun i => bytes_addTrans_nonneg _ _ _ _ hp0x h.bytes_nonneg i
          · intro _
            exact htail
          · refine Or.inl ⟨htail, ?_⟩
            have := totB_addTrans_le cfg s.stats p.sourceID p.size
              (t - p.arrivalTime) hp0x
            dsimp only
            linarith

theorem w_timeInv_init (cfg : Config) (hc : CfgOk cfg) : TimeInv cfg (init cfg) := by
  refine ⟨timesLe_init cfg cfg.sources, sorted_init cfg cfg.sources, ?_,
    hc.horizon_nonneg, le_refl 0, ?_, fun i => le_refl 0,
    fun _ => depList_init cfg cfg.sources,
    Or.inl ⟨depList_init cfg cfg.sources, ?_⟩⟩
  · exact mem_init_fold fun src hs => hc.starts_nonneg src hs
  · intro p hp
    cases hp
  · simp [totB, init, SourceStats.zero]

/-- The utilization bound extracted from the invariant (WFQ machine). -/
theorem w_totB_le_capacity (cfg : Config) (ora : Oracle) (n : Nat) (s2 : State)
    (hc : CfgOk cfg) (ho : OraOk ora)
    (hr : runFuel cfg ora n (init cfg) = some s2) :
    totB cfg s2.stats ≤ cfg.linkCapacity * cfg.simulationTime := by
  have h := w_timeInv_runFuel cfg ora n hc ho hr (w_timeInv_init cfg hc)
  rcases h.pend with ⟨_, hbound⟩ | ⟨d, p, hone, _, hp0, hbound⟩
  · calc totB cfg s2.stats
        ≤ cfg.linkCapacity * s2.currentTime := hbound
      _ ≤ cfg.linkCapacity * cfg.simulationTime :=
        mul_le_mul_of_nonneg_left h.now_le (le_of_lt hc.cap_pos)
  · have hdT : d ≤ cfg.simulationTime := by
      have hmem := depList_mem (by rw [hone]; exact List.mem_cons_self _ _)
      exact h.horizon _ hmem
    have : cfg.linkCapacity * d ≤ cfg.linkCapacity * cfg.simulationTime :=
      mul_le_mul_of_nonneg_left hdT (le_of_lt hc.cap_pos)
    linarith

end WFQ

/-! ## Claim C9 -/

/-- Server utilization `(totBytes / linkCapacity) / simulationTime` as
computed by `printResults` (fcfs_simulator.cpp:219, wfq_simulator.cpp:254). -/
def utilization (cfg : Config) (st : Nat → SourceStats) : Rat :=
  totB cfg st / cfg.linkCapacity / cfg.simulationTime

theorem utilization_bounds (cfg : Config) (st : Nat → SourceStats)
    (hC : 0 < cfg.linkCapacity) (hT : 0 ≤ cfg.simulationTime)
    (h0 : 0 ≤ totB cfg st) (h1 : totB cfg st ≤ cfg.linkCapacity * cfg.simulationTime) :
    0 ≤ utilization cfg st ∧ utilization cfg st ≤ 1 := by
  constructor
  · exact div_nonneg (div_nonneg h0 (le_of_lt hC)) hT
  · rcases eq_or_lt_of_le hT with hT0 | hT0
    · rw [utilization, ← hT0, div_zero]
      norm_num
    · rw [utilization, div_le_one hT0, div_le_iff₀ hC]
      linarith

/-- C9: for every run of either simulator over a valid configuration
(positive capacity, nonnegative horizon and start times) with nonnegative
oracle draws, the total bytes transmitted summed over sources is at most
`C · T`, and the reported utilization `(Σbytes / C) / T` lies in `[0, 1]`. -/
theorem c9_utilization (cfg : Config) (ora : Oracle) (n : Nat)
    (hc : CfgOk cfg) (ho : OraOk ora) :
    (totB cfg (FCFS.runFuel cfg ora n (FCFS.init cfg)).stats ≤
        cfg.linkCapacity * cfg.simulationTime ∧
      0 ≤ utilization cfg (FCFS.runFuel cfg ora n (FCFS.init cfg)).stats ∧
      utilization cfg (FCFS.runFuel cfg ora n (FCFS.init cfg)).stats ≤ 1) ∧
    (∀ s2, WFQ.runFuel cfg ora n (WFQ.init cfg) = some s2 →
      totB cfg s2.stats ≤ cfg.linkCapacity * cfg.simulationTime ∧
      0 ≤ utilization cfg s2.stats ∧ utilization cfg s2.stats ≤ 1) := by
  constructor
  · have h1 := FCFS.totB_le_capacity cfg ora n hc ho
    have h0 := totB_nonneg cfg _
      (FCFS.timeInv_runFuel cfg ora n hc ho (FCFS.timeInv_init cfg hc)).bytes_nonneg
    have hu := utilization_bounds cfg _ hc.cap_pos hc.horizon_nonneg h0 h1
    exact ⟨h1, hu.1, hu.2⟩
  · intro s2 hr
    have h1 := WFQ.w_totB_le_capacity cfg ora n s2 hc ho hr
    have h0 := totB_nonneg cfg _
      (WFQ.w_timeInv_runFuel cfg ora n hc ho hr (WFQ.w_timeInv_init cfg hc)).bytes_nonneg
    have hu := utilization_bounds cfg _ hc.cap_pos hc.horizon_nonneg h0 h1
    exact ⟨h1, hu.1, hu.2⟩

def c9wCfg : Config := ⟨1, 10, 1, 1, [⟨0, 1, 0, 0, 1, 0, 10⟩]⟩

def c9wOra : Oracle := fun _ => (100, 2)

theorem c9_utilization_witness :
    totB c9wCfg (FCFS.runFuel c9wCfg c9wOra 3 (FCFS.init c9wCfg)).stats ≤
      c9wCfg.linkCapacity * c9wCfg.simulationTime ∧
    utilization c9wCfg (FCFS.runFuel c9wCfg c9wOra 3 (FCFS.init c9wCfg)).stats ≤ 1 ∧
    ∃ s2, WFQ.runFuel c9wCfg c9wOra 3 (WFQ.init c9wCfg) = some s2 ∧
      utilization c9wCfg s2.stats ≤ 1 := by
  have h := c9_utilization c9wCfg c9wOra 3
    ⟨by decide, by decide, by decide⟩
    ⟨fun _ => (by norm_num : (0 : Rat) ≤ 100), fun _ => (by norm_num : (0 : Int) ≤ 2)⟩
  refine ⟨h.1.1, h.1.2.2, ?_⟩
  rcases hs : WFQ.runFuel c9wCfg c9wOra 3 (WFQ.init c9wCfg) with _ | s2
  · have hsm : (WFQ.runFuel c9wCfg c9wOra 3 (WFQ.init c9wCfg)).isSome = true := by decide
    rw [hs] at hsm
    exact Bool.noConfusion hsm
  · exact ⟨s2, rfl, (h.2 s2 hs).2.2⟩

/-! ## Claim C10 -/

theorem trans_bumpGen (st : Nat → SourceStats) (j i : Nat) :
    (bumpGen st j i).packetsTransmitted = (st i).packetsTransmitted := by
  by_cases h : i = j
  · subst h; rw [bumpGen_self]
  · rw [bumpGen_ne _ _ _ h]

theorem trans_bumpDrop (st : Nat → SourceStats) (j i : Nat) :
    (bumpDrop st j i).packetsTransmitted = (st i).packetsTransmitted := by
  by_cases h : i = j
  · subst h; rw [bumpDrop_self]
  · rw [bumpDrop_ne _ _ _ h]

/-- A "stuck" FCFS link: transmitting, but with no pending departure event
(the departure was discarded by the horizon filter). -/
def FCFS.Stuck (s : FCFS.State) : Prop :=
  s.linkBusy = true ∧ depList s.eventQueue = []

/-- A "stuck" WFQ link. -/
def WFQ.Stuck (s : WFQ.State) : Prop :=
  s.linkBusy = true ∧ depList s.eventQueue = []

theorem FCFS.stuck_arrival (cfg : Config) (ora : Oracle) (srcID : Nat)
    {s : FCFS.State} (h : FCFS.Stuck s) :
    FCFS.Stuck (FCFS.handleArrivalEvent cfg ora srcID s) ∧
    (FCFS.handleArrivalEvent cfg ora srcID s).depLog = s.depLog ∧
    (FCFS.handleArrivalEvent cfg ora srcID s).lost = s.lost ∧
    ∀ i, ((FCFS.handleArrivalEvent cfg ora srcID s).stats i).packetsTransmitted =
          (s.stats i).packetsTransmitted ∧
        ((FCFS.handleArrivalEvent cfg ora srcID s).stats i).bytesTransmitted =
          (s.stats i).bytesTransmitted := by
  have key : ∀ t : FCFS.State, t.linkBusy = true → depList t.eventQueue = [] →
      (∀ i, (t.stats i).packetsTransmitted = (s.stats i).packetsTransmitted ∧
            (t.stats i).bytesTransmitted = (s.stats i).bytesTransmitted) →
      t.depLog = s.depLog → t.lost = s.lost →
      FCFS.Stuck (FCFS.startNextTransmission cfg t) ∧
      (FCFS.startNextTransmission cfg t).depLog = s.depLog ∧
      (FCFS.startNextTransmission cfg t).lost = s.lost ∧
      ∀ i, ((FCFS.startNextTransmission cfg t).stats i).packetsTransmitted =
            (s.stats i).packetsTransmitted ∧
          ((FCFS.startNextTransmission cfg t).stats i).bytesTransmitted =
            (s.stats i).bytesTransmitted := by
    intro t h1 h2 h3 h4 h5
    rw [FCFS.startNext_busy cfg t h1]
    exact ⟨⟨h1, h2⟩, h4, h5, h3⟩
  by_cases hB : s.buffer.length < cfg.bufferSize
  · rw [FCFS.arrival_enq cfg ora srcID s hB]
    refine key _ ?_ ?_ ?_ ?_ ?_
    · exact h.1
    · show depList (FCFS.nextQueue cfg ora srcID s) = []
      rw [FCFS.depList_nextQueue]
      exact h.2
    · exact fun i => ⟨trans_bumpGen _ _ _, bytes_bumpGen _ _ _⟩
    · rfl
    · rfl
  · rw [FCFS.arrival_drop cfg ora srcID s hB]
    refine key _ ?_ ?_ ?_ ?_ ?_
    · exact h.1
    · show depList (FCFS.nextQueue cfg ora srcID s) = []
      rw [FCFS.depList_nextQueue]
      exact h.2
    · intro i
      constructor
      · show (bumpDrop (bumpGen s.stats srcID) srcID i).packetsTransmitted =
          (s.stats i).packetsTransmitted
        rw [trans_bumpDrop, trans_bumpGen]
      · show (bumpDrop (bumpGen s.stats srcID) srcID i).bytesTransmitted =
          (s.stats i).bytesTransmitted
        rw [bytes_bumpDrop, bytes_bumpGen]
    · rfl
    · rfl

theorem FCFS.stuck_runFuel (cfg : Config) (ora : Oracle) (n : Nat) {s : FCFS.State}
    (h : FCFS.Stuck s) :
    FCFS.Stuck (FCFS.runFuel cfg ora n s) ∧
    (FCFS.runFuel cfg ora n s).depLog = s.depLog ∧
    (FCFS.runFuel cfg ora n s).lost = s.lost ∧
    ∀ i, ((FCFS.runFuel cfg ora n s).stats i).packetsTransmitted =
          (s.stats i).packetsTransmitted ∧
        ((FCFS.runFuel cfg ora n s).stats i).bytesTransmitted =
          (s.stats i).bytesTransmitted := by
  induction n generalizing s with
  | zero => exact ⟨h, rfl, rfl, fun i => ⟨rfl, rfl⟩⟩
  | succ n ih =>
    rcases hq : s.eventQueue with _ | ⟨e, q⟩
    · rw [FCFS.runFuel_nil cfg ora n s hq]
      exact ⟨h, rfl, rfl, fun i => ⟨rfl, rfl⟩⟩
    · rcases e with ⟨t, j⟩ | ⟨t, p⟩
      · have hdlq : depList q = [] := by
          have := h.2
          rw [hq, depList_cons_arrival] at this
          exact this
        by_cases hT : cfg.simulationTime < t
        · rw [FCFS.runFuel_break cfg ora n s _ q hq (by simpa using hT)]
          exact ⟨⟨h.1, hdlq⟩, rfl, rfl, fun i => ⟨rfl, rfl⟩⟩
        · rw [FCFS.runFuel_arrival cfg ora n s t j q hq (by simpa using hT)]
          have hmid : FCFS.Stuck { s with currentTime := t, eventQueue := q } :=
            ⟨h.1, hdlq⟩
          have h1 := FCFS.stuck_arrival cfg ora j hmid
          have h2 := ih h1.1
          refine ⟨h2.1, ?_, ?_, fun i => ⟨?_, ?_⟩⟩
          · rw [h2.2.1, h1.2.1]
          · rw [h2.2.2.1, h1.2.2.1]
          · rw [(h2.2.2.2 i).1, (h1.2.2.2 i).1]
          · rw [(h2.2.2.2 i).2, (h1.2.2.2 i).2]
      · exfalso
        have := h.2
        rw [hq, depList_cons_departure] at this
        cases this

theorem WFQ.w_stuck_arrival (cfg : Config) (ora : Oracle) (srcID : Nat)
    {s s2 : WFQ.State} (hr : WFQ.handleArrivalEvent cfg ora srcID s = some s2)
    (h : WFQ.Stuck s) :
    WFQ.Stuck s2 ∧ s2.depLog = s.depLog ∧ s2.lost = s.lost ∧ s2.vLog = s.vLog ∧
    ∀ i, (s2.stats i).packetsTransmitted = (s.stats i).packetsTransmitted ∧
        (s2.stats i).bytesTransmitted = (s.stats i).bytesTransmitted := by
  have key : ∀ t : WFQ.State, t.linkBusy = true → depList t.eventQueue = [] →
      (∀ i, (t.stats i).packetsTransmitted = (s.stats i).packetsTransmitted ∧
            (t.stats i).bytesTransmitted = (s.stats i).bytesTransmitted) →
      t.depLog = s.depLog → t.lost = s.lost → t.vLog = s.vLog →
      s2 = WFQ.startNextTransmission cfg t →
      WFQ.Stuck s2 ∧ s2.depLog = s.depLog ∧ s2.lost = s.lost ∧ s2.vLog = s.vLog ∧
      ∀ i, (s2.stats i).packetsTransmitted = (s.stats i).packetsTransmitted ∧
          (s2.stats i).bytesTransmitted = (s.stats i).bytesTransmitted := by
    intro t h1 h2 h3 h4 h5 h6 h7
    rw [h7, WFQ.w_startNext_busy cfg t h1]
    exact ⟨⟨h1, h2⟩, h4, h5, h6, h3⟩
  by_cases hB : s.buffer.length < cfg.bufferSize
  · rw [WFQ.w_arrival_enq cfg ora srcID s hB] at hr
    have hs2 := (Option.some.inj hr).symm
    refine key _ ?_ ?_ ?_ ?_ ?_ ?_ hs2
    · exact h.1
    · show depList (WFQ.nextQueue cfg ora srcID s) = []
      rw [WFQ.w_depList_nextQueue]
      exact h.2
    · exact fun i => ⟨trans_bumpGen _ _ _, bytes_bumpGen _ _ _⟩
    · rfl
    · rfl
    · rfl
  · rcases hbuf : s.buffer with _ | ⟨d, rest⟩
    · rw [WFQ.arrival_ub cfg ora srcID s hB hbuf] at hr
      cases hr
    · rw [WFQ.arrival_dropmin cfg ora srcID s d rest hB hbuf] at hr
      have hs2 := (Option.some.inj hr).symm
      refine key _ ?_ ?_ ?_ ?_ ?_ ?_ hs2
      · exact h.1
      · show depList (WFQ.nextQueue cfg ora srcID s) = []
        rw [WFQ.w_depList_nextQueue]
        exact h.2
      · intro i
        constructor
        · show (bumpDrop (bumpGen s.stats srcID) d.sourceID i).packetsTransmitted =
            (s.stats i).packetsTransmitted
          rw [trans_bumpDrop, trans_bumpGen]
        · show (bumpDrop (bumpGen s.stats srcID) d.sourceID i).bytesTransmitted =
            (s.stats i).bytesTransmitted
          rw [bytes_bumpDrop, bytes_bumpGen]
      · rfl
      · rfl
      · rfl

theorem WFQ.w_stuck_runFuel (cfg : Config) (ora : Oracle) (n : Nat) {s s2 : WFQ.State}
    (hr : WFQ.runFuel cfg ora n s = some s2) (h : WFQ.Stuck s) :
    WFQ.Stuck s2 ∧ s2.depLog = s.depLog ∧ s2.lost = s.lost ∧ s2.vLog = s.vLog ∧
    ∀ i, (s2.stats i).packetsTransmitted = (s.stats i).packetsTransmitted ∧
        (s2.stats i).bytesTransmitted = (s.stats i).bytesTransmitted := by
  induction n generalizing s with
  | zero =>
    obtain rfl := Option.some.inj hr
    exact ⟨h, rfl, rfl, rfl, fun i => ⟨rfl, rfl⟩⟩
  | succ n ih =>
    rcases hq : s.eventQueue with _ | ⟨e, q⟩
    · rw [WFQ.w_runFuel_nil cfg ora n s hq] at hr
      obtain rfl := Option.some.inj hr
      exact ⟨h, rfl, rfl, rfl, fun i => ⟨rfl, rfl⟩⟩
    · rcases e with ⟨t, j⟩ | ⟨t, p⟩
      · have hdlq : depList q = [] := by
          have := h.2
          rw [hq, depList_cons_arrival] at this
          exact this
        by_cases hT : cfg.simulationTime < t
        · rw [WFQ.w_runFuel_break cfg ora n s _ q hq (by simpa using hT)] at hr
          obtain rfl := Option.some.inj hr
          exact ⟨⟨h.1, hdlq⟩, rfl, rfl, rfl, fun i => ⟨rfl, rfl⟩⟩
        · rw [WFQ.w_runFuel_arrival cfg ora n s t j q hq (by simpa using hT)] at hr
          have hmid : WFQ.Stuck { s with currentTime := t, eventQueue := q } :=
            ⟨h.1, hdlq⟩
          rcases hh : WFQ.handleArrivalEvent cfg ora j
              { s with currentTime := t, eventQueue := q } with _ | s3
          · rw [hh] at hr; cases hr
          · rw [hh] at hr
            have h1 := WFQ.w_stuck_arrival cfg ora j hh hmid
            have h2 := ih hr h1.1
            refine ⟨h2.1, ?_, ?_, ?_, fun i => ⟨?_, ?_⟩⟩
            · rw [h2.2.1, h1.2.1]
            · rw [h2.2.2.1, h1.2.2.1]
            · rw [h2.2.2.2.1, h1.2.2.2.1]
            · rw [(h2.2.2.2.2 i).1, (h1.2.2.2.2 i).1]
            · rw [(h2.2.2.2.2 i).2, (h1.2.2.2.2 i).2]
      · exfalso
        have := h.2
        rw [hq, depList_cons_departure] at this
        cases this

/-- C10: (i) when a transmission is started whose departure time exceeds the
horizon, the departure event is silently discarded: the event queue is left
unchanged, the link is marked busy, the dispatched packet is removed from
the buffer and recorded only in the observation field `lost`, and the
statistics are untouched (so the packet is counted in none of transmitted,
dropped, or the buffer); (ii) from such a stuck state, the rest of the run
keeps the link busy, never schedules or processes a departure, and never
changes any source's transmitted counters, bytes, or the departure log (and,
for WFQ, never samples systemVirtualTime again). -/
theorem c10_lost_inflight :
    (∀ (cfg : Config) (s : FCFS.State) (p : Packet) (rest : List Packet),
      s.linkBusy = false → s.buffer = p :: rest →
      ¬ s.currentTime + (p.size : Rat) / cfg.linkCapacity ≤ cfg.simulationTime →
      depList s.eventQueue = [] →
      FCFS.startNextTransmission cfg s =
        { s with linkBusy := true, buffer := rest, lost := s.lost ++ [p] } ∧
      FCFS.Stuck (FCFS.startNextTransmission cfg s)) ∧
    (∀ (cfg : Config) (ora : Oracle) (n : Nat) (s : FCFS.State), FCFS.Stuck s →
      FCFS.Stuck (FCFS.runFuel cfg ora n s) ∧
      (FCFS.runFuel cfg ora n s).depLog = s.depLog ∧
      (FCFS.runFuel cfg ora n s).lost = s.lost ∧
      ∀ i, ((FCFS.runFuel cfg ora n s).stats i).packetsTransmitted =
            (s.stats i).packetsTransmitted ∧
          ((FCFS.runFuel cfg ora n s).stats i).bytesTransmitted =
            (s.stats i).bytesTransmitted) ∧
    (∀ (cfg : Config) (s : WFQ.State) (p : Packet) (rest : List Packet),
      s.linkBusy = false → s.buffer = p :: rest →
      ¬ s.currentTime + (p.size : Rat) / cfg.linkCapacity ≤ cfg.simulationTime →
      depList s.eventQueue = [] →
      WFQ.startNextTransmission cfg s =
        { s with linkBusy := true, buffer := rest,
                 systemVirtualTime := p.virtualFinishTime - (p.size : Rat) / p.weight,
                 vLog := s.vLog ++ [p.virtualFinishTime - (p.size : Rat) / p.weight],
                 lost := s.lost ++ [p] } ∧
      WFQ.Stuck (WFQ.startNextTransmission cfg s)) ∧
    (∀ (cfg : Config) (ora : Oracle) (n : Nat) (s s2 : WFQ.State),
      WFQ.runFuel cfg ora n s = some s2 → WFQ.Stuck s →
      WFQ.Stuck s2 ∧ s2.depLog = s.depLog ∧ s2.lost = s.lost ∧ s2.vLog = s.vLog ∧
      ∀ i, (s2.stats i).packetsTransmitted = (s.stats i).packetsTransmitted ∧
          (s2.stats i).bytesTransmitted = (s.stats i).bytesTransmitted) := by
  refine ⟨?_, ?_, ?_, ?_⟩
  · intro cfg s p rest hb hbuf hd hdl
    have heq := FCFS.startNext_lost cfg s p rest hb hbuf hd
    exact ⟨heq, by rw [heq]; exact ⟨rfl, hdl⟩⟩
  · intro cfg ora n s h
    exact FCFS.stuck_runFuel cfg ora n h
  · intro cfg s p rest hb hbuf hd hdl
    have heq := WFQ.w_startNext_lost cfg s p rest hb hbuf hd
    exact ⟨heq, by rw [heq]; exact ⟨rfl, hdl⟩⟩
  · intro cfg ora n s s2 hr h
    exact WFQ.w_stuck_runFuel cfg ora n hr h

def c10Cfg : Config := ⟨1, 10, 1, 1, [⟨0, 1, 0, 0, 1, 0, 10⟩]⟩

def c10Ora : Oracle := fun _ => (1, 1)

def c10P : Packet := ⟨1, 0, 100, 0, 0, 0⟩

def c10sF : FCFS.State :=
  { currentTime := 0, linkBusy := false, nextPacketId := 2, buffer := [c10P],
    eventQueue := [], stats := fun _ => SourceStats.zero, draws := 1, lost := [],
    depLog := [], dropLog := [] }

def c10sW : WFQ.State :=
  { currentTime := 0, systemVirtualTime := 0, linkBusy := false, nextPacketId := 2,
    buffer := [c10P], eventQueue := [], stats := fun _ => SourceStats.zero,
    lastF := fun _ => 0, draws := 1, lost := [], depLog := [], dropLog := [],
    genLog := [], vLog := [] }

theorem c10_lost_inflight_witness :
    FCFS.Stuck (FCFS.startNextTransmission c10Cfg c10sF) ∧
    FCFS.Stuck (FCFS.runFuel c10Cfg c10Ora 3 (FCFS.startNextTransmission c10Cfg c10sF)) ∧
    WFQ.Stuck (WFQ.startNextTransmission c10Cfg c10sW) ∧
    ∀ s2, WFQ.runFuel c10Cfg c10Ora 3 (WFQ.startNextTransmission c10Cfg c10sW) = some s2 →
      WFQ.Stuck s2 := by
  have h1 := c10_lost_inflight.1 c10Cfg c10sF c10P [] rfl rfl (by decide) rfl
  have h3 := c10_lost_inflight.2.2.1 c10Cfg c10sW c10P [] rfl rfl (by decide) rfl
  exact ⟨h1.2, (c10_lost_inflight.2.1 c10Cfg c10Ora 3 _ h1.2).1, h3.2,
    fun s2 hs2 => (c10_lost_inflight.2.2.2 c10Cfg c10Ora 3 _ s2 hs2 h3.2).1⟩

/-! ## Claim C8 -/

/-- Jain's fairness index as computed by `printResults`
(fcfs_simulator.cpp:222, wfq_simulator.cpp:257): 0 when `Σ x² = 0`. -/
def fairness (N : Nat) (x : Nat → Rat) : Rat :=
  if 0 < ∑ i ∈ Finset.range N, x i * x i then
    (∑ i ∈ Finset.range N, x i) * (∑ i ∈ Finset.range N, x i) /
      ((N : Rat) * ∑ i ∈ Finset.range N, x i * x i)
  else 0

/-- The fairness term of the FCFS report: raw transmitted bytes
(fcfs_simulator.cpp:214). -/
def fcfsX (st : Nat → SourceStats) (i : Nat) : Rat := (st i).bytesTransmitted

/-- The fairness term of the WFQ report: weight-normalized transmitted bytes
(wfq_simulator.cpp:249). -/
def wfqX (cfg : Config) (st : Nat → SourceStats) (i : Nat) : Rat :=
  if 0 < (cfg.sources.getD i dfltSource).weight then
    (st i).bytesTransmitted / (cfg.sources.getD i dfltSource).weight
  else 0

theorem double_diff_sq (N : Nat) (x : Nat → Rat) :
    ∑ i ∈ Finset.range N, ∑ j ∈ Finset.range N, (x i - x j)^2 =
      2 * ((N : Rat) * (∑ i ∈ Finset.range N, x i * x i) -
        (∑ i ∈ Finset.range N, x i) * (∑ i ∈ Finset.range N, x i)) := by
  have inner : ∀ i, ∑ j ∈ Finset.range N, (x i - x j)^2 =
      (N : Rat) * (x i * x i) - 2 * (x i * ∑ j ∈ Finset.range N, x j) +
        ∑ j ∈ Finset.range N, x j * x j := by
    intro i
    have e1 : ∀ j ∈ Finset.range N, (x i - x j)^2 =
        x i * x i - 2 * (x i * x j) + x j * x j := fun j _ => by ring
    rw [Finset.sum_congr rfl e1, Finset.sum_add_distrib, Finset.sum_sub_distrib,
      Finset.sum_const, Finset.card_range, nsmul_eq_mul, ← Finset.mul_sum,
      ← Finset.mul_sum]
  rw [Finset.sum_congr rfl fun i _ => inner i, Finset.sum_add_distrib,
    Finset.sum_sub_distrib, Finset.sum_const, Finset.card_range, nsmul_eq_mul]
  have e2 : ∑ i ∈ Finset.range N, (N : Rat) * (x i * x i) =
      (N : Rat) * ∑ i ∈ Finset.range N, x i * x i := by
    rw [Finset.mul_sum]
  have e3 : ∑ i ∈ Finset.range N, 2 * (x i * ∑ j ∈ Finset.range N, x j) =
      2 * ((∑ i ∈ Finset.range N, x i) * (∑ j ∈ Finset.range N, x j)) := by
    rw [← Finset.mul_sum, ← Finset.sum_mul]
  rw [e2, e3]
  ring

theorem fairness_bounds (N : Nat) (x : Nat → Rat) (hx : ∀ i, 0 ≤ x i)
    (hQ : 0 < ∑ i ∈ Finset.range N, x i * x i) :
    1 / (N : Rat) ≤ fairness N x ∧ fairness N x ≤ 1 ∧
    (fairness N x = 1 ↔
      ∀ i ∈ Finset.range N, ∀ j ∈ Finset.range N, x i = x j) := by
  have hN : 0 < N := by
    by_contra hN
    have : N = 0 := by omega
    subst this
    simp at hQ
  have hNQ : 0 < (N : Rat) * ∑ i ∈ Finset.range N, x i * x i := by
    have : (0 : Rat) < N := by exact_mod_cast hN
    exact mul_pos this hQ
  have hdsq : 0 ≤ ∑ i ∈ Finset.range N, ∑ j ∈ Finset.range N, (x i - x j)^2 :=
    Finset.sum_nonneg fun i _ => Finset.sum_nonneg fun j _ => sq_nonneg _
  have key1 : (∑ i ∈ Finset.range N, x i) * (∑ i ∈ Finset.range N, x i) ≤
      (N : Rat) * ∑ i ∈ Finset.range N, x i * x i := by
    have := double_diff_sq N x
    linarith
  have key2 : (∑ i ∈ Finset.range N, x i * x i) ≤
      (∑ i ∈ Finset.range N, x i) * (∑ i ∈ Finset.range N, x i) := by
    rw [Finset.sum_mul]
    refine Finset.sum_le_sum ?_
    intro i hi
    rw [Finset.mul_sum]
    exact Finset.single_le_sum (f := fun j => x i * x j)
      (fun j _ => mul_nonneg (hx i) (hx j)) hi
  have hfair : fairness N x =
      (∑ i ∈ Finset.range N, x i) * (∑ i ∈ Finset.range N, x i) /
        ((N : Rat) * ∑ i ∈ Finset.range N, x i * x i) := if_pos hQ
  refine ⟨?_, ?_, ?_⟩
  · rw [hfair, div_le_div_iff₀ (by exact_mod_cast hN) hNQ]
    have := mul_le_mul_of_nonneg_right key2 (by exact_mod_cast le_of_lt hN :
      (0 : Rat) ≤ (N : Rat))
    calc (1 : Rat) * ((N : Rat) * ∑ i ∈ Finset.range N, x i * x i)
        = (∑ i ∈ Finset.range N, x i * x i) * (N : Rat) := by ring
      _ ≤ ((∑ i ∈ Finset.range N, x i) * (∑ i ∈ Finset.range N, x i)) * (N : Rat) :=
        this
  · rw [hfair, div_le_one hNQ]
    exact key1
  · rw [hfair, div_eq_one_iff_eq (ne_of_gt hNQ)]
    have hzero : ((∑ i ∈ Finset.range N, x i) * (∑ i ∈ Finset.range N, x i) =
        (N : Rat) * ∑ i ∈ Finset.range N, x i * x i) ↔
        ∑ i ∈ Finset.range N, ∑ j ∈ Finset.range N, (x i - x j)^2 = 0 := by
      have := double_diff_sq N x
      constructor
      · intro h
        linarith
      · intro h
        linarith
    rw [hzero, Finset.sum_eq_zero_iff_of_nonneg
      fun i _ => Finset.sum_nonneg fun j _ => sq_nonneg _]
    constructor
    · intro h i hi j hj
      have h2 := (Finset.sum_eq_zero_iff_of_nonneg fun j _ => sq_nonneg _).mp (h i hi) j hj
      have h3 := sq_eq_zero_iff.mp h2
      linarith
    · intro h i hi
      refine Finset.sum_eq_zero fun j hj => ?_
      rw [h i hi j hj]
      ring

/-- C8 (amended): whenever `Σ x_i² > 0`, the reported Jain index lies in
`[1/N, 1]` and equals 1 iff all `x_i` (i < numSources) are equal; when all
`x_i` are 0 (e.g. a run with no transmissions) the code reports `J = 0`,
which falls outside `[1/N, 1]` and breaks the "iff all equal" clause — see
`c8_counterexample`.  Stated for the x of both reports: raw bytes for FCFS,
weight-normalized bytes for WFQ. -/
theorem c8_fairness_amended (cfg : Config) (ora : Oracle) (n : Nat)
    (hc : CfgOk cfg) (ho : OraOk ora) :
    (0 < ∑ i ∈ Finset.range cfg.numSources,
        fcfsX (FCFS.runFuel cfg ora n (FCFS.init cfg)).stats i *
        fcfsX (FCFS.runFuel cfg ora n (FCFS.init cfg)).stats i →
      1 / (cfg.numSources : Rat) ≤
          fairness cfg.numSources (fcfsX (FCFS.runFuel cfg ora n (FCFS.init cfg)).stats) ∧
        fairness cfg.numSources (fcfsX (FCFS.runFuel cfg ora n (FCFS.init cfg)).stats) ≤ 1 ∧
        (fairness cfg.numSources (fcfsX (FCFS.runFuel cfg ora n (FCFS.init cfg)).stats) = 1 ↔
          ∀ i ∈ Finset.range cfg.numSources, ∀ j ∈ Finset.range cfg.numSources,
            fcfsX (FCFS.runFuel cfg ora n (FCFS.init cfg)).stats i =
              fcfsX (FCFS.runFuel cfg ora n (FCFS.init cfg)).stats j)) ∧
    (∀ s2, WFQ.runFuel cfg ora n (WFQ.init cfg) = some s2 →
      0 < ∑ i ∈ Finset.range cfg.numSources, wfqX cfg s2.stats i * wfqX cfg s2.stats i →
      1 / (cfg.numSources : Rat) ≤ fairness cfg.numSources (wfqX cfg s2.stats) ∧
        fairness cfg.numSources (wfqX cfg s2.stats) ≤ 1 ∧
        (fairness cfg.numSources (wfqX cfg s2.stats) = 1 ↔
          ∀ i ∈ Finset.range cfg.numSources, ∀ j ∈ Finset.range cfg.numSources,
            wfqX cfg s2.stats i = wfqX cfg s2.stats j)) := by
  constructor
  · intro hQ
    have hb := (FCFS.timeInv_runFuel cfg ora n hc ho (FCFS.timeInv_init cfg hc)).bytes_nonneg
    exact fairness_bounds cfg.numSources _ (fun i => hb i) hQ
  · intro s2 hr hQ
    have hb := (WFQ.w_timeInv_runFuel cfg ora n hc ho hr (WFQ.w_timeInv_init cfg hc)).bytes_nonneg
    refine fairness_bounds cfg.numSources _ (fun i => ?_) hQ
    unfold wfqX
    split
    next hw => exact div_nonneg (hb i) (le_of_lt hw)
    next => exact le_refl 0

def c8cCfg : Config := ⟨1, 10, 1, 1, [⟨0, 1, 0, 0, 1, 20, 30⟩]⟩

def c8cOra : Oracle := fun _ => (1, 1)

/-- C8 counterexample: a single-source run whose only arrival lies past the
horizon, so nothing is ever transmitted: all x_i are 0 (and hence equal),
`Σ x² = 0`, and the code reports `J = 0`, which is outside `[1/N, 1] = [1, 1]`
and refutes `J = 1 ↔ all x_i equal`. -/
theorem c8_counterexample :
    fairness c8cCfg.numSources
      (fcfsX (FCFS.runFuel c8cCfg c8cOra 3 (FCFS.init c8cCfg)).stats) = 0 ∧
    (1 : Rat) / (c8cCfg.numSources : Rat) = 1 ∧
    (∀ i ∈ Finset.range c8cCfg.numSources, ∀ j ∈ Finset.range c8cCfg.numSources,
      fcfsX (FCFS.runFuel c8cCfg c8cOra 3 (FCFS.init c8cCfg)).stats i =
        fcfsX (FCFS.runFuel c8cCfg c8cOra 3 (FCFS.init c8cCfg)).stats j) ∧
    fairness c8cCfg.numSources
      (fcfsX (FCFS.runFuel c8cCfg c8cOra 3 (FCFS.init c8cCfg)).stats) ≠ 1 := by
  decide

def c8wCfg : Config := ⟨1, 10, 1, 1, [⟨0, 1, 0, 0, 1, 0, 10⟩]⟩

def c8wOra : Oracle := fun _ => (100, 2)

theorem c8_fairness_amended_witness :
    1 / (c8wCfg.numSources : Rat) ≤
      fairness c8wCfg.numSources
        (fcfsX (FCFS.runFuel c8wCfg c8wOra 3 (FCFS.init c8wCfg)).stats) ∧
    fairness c8wCfg.numSources
      (fcfsX (FCFS.runFuel c8wCfg c8wOra 3 (FCFS.init c8wCfg)).stats) ≤ 1 := by
  have h := (c8_fairness_amended c8wCfg c8wOra 3
    ⟨by decide, by decide, by decide⟩
    ⟨fun _ => (by norm_num : (0 : Rat) ≤ 100), fun _ => (by norm_num : (0 : Int) ≤ 2)⟩).1
    (by decide)
  exact ⟨h.1, h.2.1⟩

/-! ## Claim C7 -/

/-- The discipline-independent content of a packet: id, source, size,
arrival time (the WFQ-only `weight` and `virtualFinishTime` are ignored). -/
def Packet.core (p : Packet) : Nat × Nat × Int × Rat :=
  (p.id, p.sourceID, p.size, p.arrivalTime)

theorem core_eq_iff {p q : Packet} : p.core = q.core ↔
    p.id = q.id ∧ p.sourceID = q.sourceID ∧ p.size = q.size ∧
      p.arrivalTime = q.arrivalTime := by
  unfold Packet.core
  simp only [Prod.mk.injEq]

/-- Correspondence between an FCFS event and a WFQ event: equal times and
sources, core-equal packets. -/
def EvR : Event → Event → Prop
  | .arrival t j, .arrival t2 j2 => t = t2 ∧ j = j2
  | .departure t p, .departure t2 p2 => t = t2 ∧ p.core = p2.core
  | .arrival _ _, .departure _ _ => False
  | .departure _ _, .arrival _ _ => False

theorem EvR.time_eq : ∀ {e e2 : Event}, EvR e e2 → e.time = e2.time := by
  intro e e2 h
  rcases e with ⟨t, j⟩ | ⟨t, p⟩ <;> rcases e2 with ⟨t2, j2⟩ | ⟨t2, p2⟩
  · exact h.1
  · exact h.elim
  · exact h.elim
  · exact h.1

def evSrc : Event → Nat
  | .arrival _ j => j
  | .departure _ p => p.sourceID

theorem forall₂_insertSorted {qF qW : List Event} (h : List.Forall₂ EvR qF qW)
    {e e2 : Event} (he : EvR e e2) :
    List.Forall₂ EvR (insertSorted Event.time e qF) (insertSorted Event.time e2 qW) := by
  induction h with
  | nil => exact List.Forall₂.cons he List.Forall₂.nil
  | @cons a b l1 l2 hab htail ih =>
    unfold insertSorted
    by_cases hc : Event.time e2 ≤ Event.time b
    · rw [if_pos (by rw [EvR.time_eq he, EvR.time_eq hab]; exact hc), if_pos hc]
      exact List.Forall₂.cons he (List.Forall₂.cons hab htail)
    · rw [if_neg (by rw [EvR.time_eq he, EvR.time_eq hab]; exact hc), if_neg hc]
      exact List.Forall₂.cons hab ih

theorem forall₂_scheduleEvent (T : Rat) {qF qW : List Event}
    (h : List.Forall₂ EvR qF qW) {e e2 : Event} (he : EvR e e2) :
    List.Forall₂ EvR (scheduleEvent T e qF) (scheduleEvent T e2 qW) := by
  unfold scheduleEvent
  by_cases hc : e2.time ≤ T
  · rw [if_pos (by rw [EvR.time_eq he]; exact hc), if_pos hc]
    exact forall₂_insertSorted h he
  · rw [if_neg (by rw [EvR.time_eq he]; exact hc), if_neg hc]
    exact h

theorem forall₂_append_single {R : α → β → Prop} {l1 : List α} {l2 : List β}
    (h : List.Forall₂ R l1 l2) {a : α} {b : β} (hab : R a b) :
    List.Forall₂ R (l1 ++ [a]) (l2 ++ [b]) := by
  induction h with
  | nil => exact List.Forall₂.cons hab List.Forall₂.nil
  | cons hxy _ ih => exact List.Forall₂.cons hxy ih

theorem insertSorted_eq_append (key : α → Rat) (a : α) (l : List α)
    (h : ∀ b ∈ l, key b < key a) : insertSorted key a l = l ++ [a] := by
  induction l with
  | nil => rfl
  | cons b t ih =>
    unfold insertSorted
    rw [if_neg (not_le.mpr (h b (List.mem_cons_self _ _))),
      ih fun c hc => h c (List.mem_cons_of_mem _ hc)]
    rfl

/-- Single-source (N = 1) correspondence between an FCFS state and a WFQ
state: the observable components agree, the WFQ buffer is the FIFO buffer
enriched with VFTs, and the WFQ bookkeeping satisfies the facts that keep
insertion at the buffer's tail. -/
structure Corr (sF : FCFS.State) (sW : WFQ.State) : Prop where
  time : sF.currentTime = sW.currentTime
  busy : sF.linkBusy = sW.linkBusy
  pid : sF.nextPacketId = sW.nextPacketId
  draws : sF.draws = sW.draws
  deplog : sF.depLog = sW.depLog
  queues : List.Forall₂ EvR sF.eventQueue sW.eventQueue
  buf : List.Forall₂ (fun p q => Packet.core p = Packet.core q) sF.buffer sW.buffer
  stats : sF.stats = sW.stats
  q0 : ∀ e ∈ sW.eventQueue, evSrc e = 0
  b0 : ∀ p ∈ sW.buffer, p.sourceID = 0
  bufout : ∀ p ∈ sW.buffer, p.virtualFinishTime ≤ sW.lastF 0
  bufratio : ∀ p ∈ sW.buffer, 0 ≤ (p.size : Rat) / p.weight
  vle : sW.systemVirtualTime ≤ sW.lastF 0

theorem corr_startNext (cfg : Config) {sF : FCFS.State} {sW : WFQ.State}
    (h : Corr sF sW) :
    Corr (FCFS.startNextTransmission cfg sF) (WFQ.startNextTransmission cfg sW) := by
  cases hb : sF.linkBusy with
  | true =>
    rw [FCFS.startNext_busy cfg sF hb, WFQ.w_startNext_busy cfg sW (h.busy ▸ hb)]
    exact h
  | false =>
    have hbW : sW.linkBusy = false := h.busy ▸ hb
    rcases hbufF : sF.buffer with _ | ⟨pF, restF⟩
    · have hbufW : sW.buffer = [] := by
        have h2 := h.buf
        rw [hbufF] at h2
        exact List.forall₂_nil_left_iff.mp h2
      rw [FCFS.startNext_idle_empty cfg sF hb hbufF,
        WFQ.w_startNext_idle_empty cfg sW hbW hbufW]
      exact h
    · have h2 := h.buf
      rw [hbufF] at h2
      rcases List.forall₂_cons_left_iff.mp h2 with ⟨pW, restW, hcore, hrest, hbufW⟩
      rcases core_eq_iff.mp hcore with ⟨hpid, hpsrc, hpsize, hparr⟩
      have hWmem : pW ∈ sW.buffer := by rw [hbufW]; exact List.mem_cons_self _ _
      have hvle2 : pW.virtualFinishTime - (pW.size : Rat) / pW.weight ≤ sW.lastF 0 := by
        have h3 := h.bufout pW hWmem
        have h4 := h.bufratio pW hWmem
        linarith
      have hdep : sF.currentTime + (pF.size : Rat) / cfg.linkCapacity =
          sW.currentTime + (pW.size : Rat) / cfg.linkCapacity := by
        rw [h.time, hpsize]
      by_cases hd : sF.currentTime + (pF.size : Rat) / cfg.linkCapacity ≤ cfg.simulationTime
      · rw [FCFS.startNext_sched cfg sF pF restF hb hbufF hd,
          WFQ.w_startNext_sched cfg sW pW restW hbW hbufW (by rw [← hdep]; exact hd)]
        have hEv : EvR
            (.departure (sF.currentTime + (pF.size : Rat) / cfg.linkCapacity) pF)
            (.departure (sW.currentTime + (pW.size : Rat) / cfg.linkCapacity) pW) :=
          ⟨hdep, hcore⟩
        refine ⟨h.time, rfl, h.pid, h.draws, h.deplog,
          forall₂_insertSorted h.queues hEv, hrest, h.stats, ?_, ?_, ?_, ?_, hvle2⟩
        · intro e he
          rcases mem_insertSorted.mp he with rfl | he
          · show pW.sourceID = 0
            exact h.b0 pW hWmem
          · exact h.q0 e he
        · intro p hp
          exact h.b0 p (by rw [hbufW]; exact List.mem_cons_of_mem _ hp)
        · intro p hp
          exact h.bufout p (by rw [hbufW]; exact List.mem_cons_of_mem _ hp)
        · intro p hp
          exact h.bufratio p (by rw [hbufW]; exact List.mem_cons_of_mem _ hp)
      · rw [FCFS.startNext_lost cfg sF pF restF hb hbufF hd,
          WFQ.w_startNext_lost cfg sW pW restW hbW hbufW (by rw [← hdep]; exact hd)]
        refine ⟨h.time, rfl, h.pid, h.draws, h.deplog, h.queues, hrest, h.stats,
          h.q0, ?_, ?_, ?_, hvle2⟩
        · intro p hp
          exact h.b0 p (by rw [hbufW]; exact List.mem_cons_of_mem _ hp)
        · intro p hp
          exact h.bufout p (by rw [hbufW]; exact List.mem_cons_of_mem _ hp)
        · intro p hp
          exact h.bufratio p (by rw [hbufW]; exact List.mem_cons_of_mem _ hp)

theorem corr_arrival (cfg : Config) (src : Source) (ora : Oracle)
    (hsrc : cfg.sources = [src]) (hw : 0 < src.weight)
    (hL : ∀ k, 0 < (ora k).2) {sF : FCFS.State} {sW : WFQ.State}
    (h : Corr sF sW) (hB : sF.buffer.length < cfg.bufferSize) :
    ∃ sW2, WFQ.handleArrivalEvent cfg ora 0 sW = some sW2 ∧
      Corr (FCFS.handleArrivalEvent cfg ora 0 sF) sW2 := by
  have hBW : sW.buffer.length < cfg.bufferSize := by
    rw [← h.buf.length_eq]
    exact hB
  have hgetD : cfg.sources.getD 0 dfltSource = src := by
    rw [hsrc]
    rfl
  have hLpos : (0 : Rat) <
      ((ora sW.draws).2 : Rat) / (cfg.sources.getD 0 dfltSource).weight := by
    rw [hgetD]
    refine div_pos ?_ hw
    exact_mod_cast hL sW.draws
  have hmax : max sW.systemVirtualTime (sW.lastF 0) = sW.lastF 0 := max_eq_right h.vle
  have hFgt : sW.lastF 0 < WFQ.vftOf cfg ora 0 sW := by
    unfold WFQ.vftOf
    rw [hmax]
    linarith
  have hbufeq : insertSorted Packet.virtualFinishTime (WFQ.newPacket cfg ora 0 sW)
      sW.buffer = sW.buffer ++ [WFQ.newPacket cfg ora 0 sW] := by
    refine insertSorted_eq_append _ _ _ ?_
    intro b hb
    show b.virtualFinishTime < WFQ.vftOf cfg ora 0 sW
    exact lt_of_le_of_lt (h.bufout b hb) hFgt
  have hcoreNew : Packet.core (FCFS.newPacket ora 0 sF) =
      Packet.core (WFQ.newPacket cfg ora 0 sW) := by
    rw [core_eq_iff]
    refine ⟨h.pid, rfl, ?_, h.time⟩
    show (ora sF.draws).2 = (ora sW.draws).2
    rw [h.draws]
  have hq : List.Forall₂ EvR (FCFS.nextQueue cfg ora 0 sF) (WFQ.nextQueue cfg ora 0 sW) := by
    unfold FCFS.nextQueue WFQ.nextQueue
    rw [h.time, h.draws]
    by_cases hc : sW.currentTime + (ora sW.draws).1 <
        (cfg.sources.getD 0 dfltSource).endTime
    · rw [if_pos hc, if_pos hc]
      exact forall₂_scheduleEvent _ h.queues ⟨rfl, rfl⟩
    · rw [if_neg hc, if_neg hc]
      exact h.queues
  have hq0 : ∀ e ∈ WFQ.nextQueue cfg ora 0 sW, evSrc e = 0 := by
    unfold WFQ.nextQueue
    split
    · intro e he
      unfold scheduleEvent at he
      split at he
      · rcases mem_insertSorted.mp he with rfl | he
        · rfl
        · exact h.q0 e he
      · exact h.q0 e he
    · exact h.q0
  refine ⟨_, WFQ.w_arrival_enq cfg ora 0 sW hBW, ?_⟩
  rw [FCFS.arrival_enq cfg ora 0 sF hB]
  refine corr_startNext cfg ?_
  refine ⟨h.time, h.busy, by rw [h.pid], by rw [h.draws], h.deplog, hq, ?_, by rw [h.stats],
    hq0, ?_, ?_, ?_, ?_⟩
  · show List.Forall₂ _ (sF.buffer ++ [FCFS.newPacket ora 0 sF])
      (insertSorted Packet.virtualFinishTime (WFQ.newPacket cfg ora 0 sW) sW.buffer)
    rw [hbufeq]
    exact forall₂_append_single h.buf hcoreNew
  · intro p hp
    rcases mem_insertSorted.mp hp with rfl | hp
    · rfl
    · exact h.b0 p hp
  · intro p hp
    show p.virtualFinishTime ≤ Function.update sW.lastF 0 (WFQ.vftOf cfg ora 0 sW) 0
    rw [Function.update_same]
    rcases mem_insertSorted.mp hp with rfl | hp
    · exact le_refl _
    · exact le_trans (h.bufout p hp) (le_of_lt hFgt)
  · intro p hp
    rcases mem_insertSorted.mp hp with rfl | hp
    · show (0 : Rat) ≤
        ((ora sW.draws).2 : Rat) / (cfg.sources.getD 0 dfltSource).weight
      exact le_of_lt hLpos
    · exact h.bufratio p hp
  · show sW.systemVirtualTime ≤ Function.update sW.lastF 0 (WFQ.vftOf cfg ora 0 sW) 0
    rw [Function.update_same]
    exact le_trans h.vle (le_of_lt hFgt)

theorem corr_departure (cfg : Config) {pF pW : Packet} (hp : pF.core = pW.core)
    {sF : FCFS.State} {sW : WFQ.State} (h : Corr sF sW) :
    Corr (FCFS.handleDepartureEvent cfg pF sF) (WFQ.handleDepartureEvent cfg pW sW) := by
  rw [FCFS.departure_eq, WFQ.w_departure_eq]
  refine corr_startNext cfg ?_
  obtain ⟨hid, hsrc, hsz, hat⟩ := core_eq_iff.mp hp
  refine ⟨h.time, rfl, h.pid, h.draws, ?_, h.queues, h.buf, ?_, h.q0, h.b0, h.bufout,
    h.bufratio, h.vle⟩
  · show sF.depLog ++ [(sF.currentTime, pF.id)] = sW.depLog ++ [(sW.currentTime, pW.id)]
    rw [h.deplog, h.time, hid]
  · show addTrans sF.stats pF.sourceID pF.size (sF.currentTime - pF.arrivalTime) =
      addTrans sW.stats pW.sourceID pW.size (sW.currentTime - pW.arrivalTime)
    rw [h.stats, h.time, hsrc, hsz, hat]

theorem fcfs_startNext_dropLog (cfg : Config) (s : FCFS.State) :
    (FCFS.startNextTransmission cfg s).dropLog = s.dropLog := by
  unfold FCFS.startNextTransmission
  split
  · rfl
  · split
    · rfl
    · split <;> rfl

theorem fcfs_arrival_dropLog (cfg : Config) (ora : Oracle) (srcID : Nat) (s : FCFS.State) :
    ∃ t, (FCFS.handleArrivalEvent cfg ora srcID s).dropLog = s.dropLog ++ t := by
  by_cases hB : s.buffer.length < cfg.bufferSize
  · rw [FCFS.arrival_enq cfg ora srcID s hB, fcfs_startNext_dropLog]
    exact ⟨[], (List.append_nil _).symm⟩
  · rw [FCFS.arrival_drop cfg ora srcID s hB, fcfs_startNext_dropLog]
    exact ⟨[FCFS.newPacket ora srcID s], rfl⟩

theorem fcfs_departure_dropLog (cfg : Config) (p : Packet) (s : FCFS.State) :
    (FCFS.handleDepartureEvent cfg p s).dropLog = s.dropLog := by
  rw [FCFS.departure_eq, fcfs_startNext_dropLog]

theorem fcfs_runFuel_dropLog (cfg : Config) (ora : Oracle) :
    ∀ (n : Nat) (s : FCFS.State),
      ∃ t, (FCFS.runFuel cfg ora n s).dropLog = s.dropLog ++ t := by
  intro n
  induction n with
  | zero => exact fun s => ⟨[], (List.append_nil _).symm⟩
  | succ n ih =>
    intro s
    rcases hq : s.eventQueue with _ | ⟨e, q⟩
    · rw [FCFS.runFuel_nil cfg ora n s hq]
      exact ⟨[], (List.append_nil _).symm⟩
    · by_cases hT : cfg.simulationTime < e.time
      · rw [FCFS.runFuel_break cfg ora n s e q hq hT]
        exact ⟨[], (List.append_nil _).symm⟩
      · rcases e with ⟨t, j⟩ | ⟨t, p⟩
        · rw [FCFS.runFuel_arrival cfg ora n s t j q hq hT]
          obtain ⟨t1, ht1⟩ := fcfs_arrival_dropLog cfg ora j
            { s with currentTime := t, eventQueue := q }
          obtain ⟨t2, ht2⟩ := ih (FCFS.handleArrivalEvent cfg ora j
            { s with currentTime := t, eventQueue := q })
          refine ⟨t1 ++ t2, ?_⟩
          rw [ht2, ht1]
          show s.dropLog ++ t1 ++ t2 = s.dropLog ++ (t1 ++ t2)
          rw [List.append_assoc]
        · rw [FCFS.runFuel_departure cfg ora n s t p q hq hT]
          obtain ⟨t2, ht2⟩ := ih (FCFS.handleDepartureEvent cfg p
            { s with currentTime := t, eventQueue := q })
          rw [fcfs_departure_dropLog] at ht2
          exact ⟨t2, ht2⟩

theorem WFQ.runFuel_arrival_some (cfg : Config) (ora : Oracle) (n : Nat) (s : WFQ.State)
    (t : Rat) (j : Nat) (q : List Event) (h : s.eventQueue = Event.arrival t j :: q)
    (hT : ¬ cfg.simulationTime < t) {s2 : WFQ.State}
    (h2 : WFQ.handleArrivalEvent cfg ora j { s with currentTime := t, eventQueue := q } =
      some s2) :
    WFQ.runFuel cfg ora (n + 1) s = WFQ.runFuel cfg ora n s2 := by
  rw [WFQ.w_runFuel_arrival cfg ora n s t j q h hT, h2]

theorem corr_pop {sF : FCFS.State} {sW : WFQ.State} (h : Corr sF sW)
    {e e2 : Event} {q q2 : List Event}
    (hqW : sW.eventQueue = e2 :: q2) (he : EvR e e2)
    (hq2 : List.Forall₂ EvR q q2) :
    Corr { sF with currentTime := e.time, eventQueue := q }
      { sW with currentTime := e2.time, eventQueue := q2 } := by
  refine ⟨EvR.time_eq he, h.busy, h.pid, h.draws, h.deplog, hq2, h.buf, h.stats, ?_,
    h.b0, h.bufout, h.bufratio, h.vle⟩
  intro ev hev
  exact h.q0 ev (by rw [hqW]; exact List.mem_cons_of_mem _ hev)

theorem corr_runFuel (cfg : Config) (src : Source) (ora : Oracle)
    (hsrc : cfg.sources = [src]) (hw : 0 < src.weight) (hL : ∀ k, 0 < (ora k).2) :
    ∀ (n : Nat) {sF : FCFS.State} {sW : WFQ.State}, Corr sF sW →
      (FCFS.runFuel cfg ora n sF).dropLog = sF.dropLog →
      ∃ sW2, WFQ.runFuel cfg ora n sW = some sW2 ∧
        Corr (FCFS.runFuel cfg ora n sF) sW2 := by
  intro n
  induction n with
  | zero =>
    intro sF sW h _
    exact ⟨sW, rfl, h⟩
  | succ n ih =>
    intro sF sW h hdrop
    rcases hqF : sF.eventQueue with _ | ⟨e, q⟩
    · have hqW : sW.eventQueue = [] := by
        have h2 := h.queues
        rw [hqF] at h2
        exact List.forall₂_nil_left_iff.mp h2
      rw [FCFS.runFuel_nil cfg ora n sF hqF]
      exact ⟨sW, WFQ.w_runFuel_nil cfg ora n sW hqW, h⟩
    · have h2 := h.queues
      rw [hqF] at h2
      rcases List.forall₂_cons_left_iff.mp h2 with ⟨e2, q2, he, hq2, hqW⟩
      have htime := EvR.time_eq he
      by_cases hT : cfg.simulationTime < e.time
      · rw [FCFS.runFuel_break cfg ora n sF e q hqF hT]
        exact ⟨_, WFQ.w_runFuel_break cfg ora n sW e2 q2 hqW (htime ▸ hT),
          corr_pop h hqW he hq2⟩
      · rcases e with ⟨t, j⟩ | ⟨t, p⟩
        · rcases e2 with ⟨t2, j2⟩ | ⟨t2, p2⟩
          · obtain ⟨ht, hj⟩ := he
            have hj2 : j2 = 0 := h.q0 (Event.arrival t2 j2)
              (by rw [hqW]; exact List.mem_cons_self _ _)
            subst ht
            subst hj2
            subst hj
            have h1 : Corr { sF with currentTime := t, eventQueue := q }
                { sW with currentTime := t, eventQueue := q2 } :=
              @corr_pop sF sW h (Event.arrival t 0) (Event.arrival t 0) q q2 hqW ⟨rfl, rfl⟩ hq2
            rw [FCFS.runFuel_arrival cfg ora n sF t 0 q hqF hT] at hdrop
            have hB : sF.buffer.length < cfg.bufferSize := by
              by_contra hB
              obtain ⟨tl, htl⟩ := fcfs_runFuel_dropLog cfg ora n
                (FCFS.handleArrivalEvent cfg ora 0
                  { sF with currentTime := t, eventQueue := q })
              rw [htl] at hdrop
              rw [FCFS.arrival_drop cfg ora 0
                { sF with currentTime := t, eventQueue := q } hB,
                fcfs_startNext_dropLog] at hdrop
              have hlen := congrArg List.length hdrop
              simp [List.length_append] at hlen
            obtain ⟨sWmid, hWeq, hmid⟩ := corr_arrival cfg src ora hsrc hw hL h1 hB
            have harrdl : (FCFS.handleArrivalEvent cfg ora 0
                { sF with currentTime := t, eventQueue := q }).dropLog = sF.dropLog := by
              rw [FCFS.arrival_enq cfg ora 0
                { sF with currentTime := t, eventQueue := q } hB,
                fcfs_startNext_dropLog]
            have hdrop2 : (FCFS.runFuel cfg ora n (FCFS.handleArrivalEvent cfg ora 0
                { sF with currentTime := t, eventQueue := q })).dropLog =
                (FCFS.handleArrivalEvent cfg ora 0
                  { sF with currentTime := t, eventQueue := q }).dropLog := by
              rw [harrdl]
              exact hdrop
            obtain ⟨z, hz, hcz⟩ := ih hmid hdrop2
            refine ⟨z, ?_, ?_⟩
            · rw [WFQ.runFuel_arrival_some cfg ora n sW t 0 q2 hqW hT hWeq]
              exact hz
            · rw [FCFS.runFuel_arrival cfg ora n sF t 0 q hqF hT]
              exact hcz
          · exact he.elim
        · rcases e2 with ⟨t2, j2⟩ | ⟨t2, p2⟩
          · exact he.elim
          · obtain ⟨ht, hp⟩ := he
            subst ht
            have h1 : Corr { sF with currentTime := t, eventQueue := q }
                { sW with currentTime := t, eventQueue := q2 } :=
              @corr_pop sF sW h (Event.departure t p) (Event.departure t p2) q q2 hqW ⟨rfl, hp⟩ hq2
            rw [FCFS.runFuel_departure cfg ora n sF t p q hqF hT] at hdrop
            have hdrop2 : (FCFS.runFuel cfg ora n (FCFS.handleDepartureEvent cfg p
                { sF with currentTime := t, eventQueue := q })).dropLog =
                (FCFS.handleDepartureEvent cfg p
                  { sF with currentTime := t, eventQueue := q }).dropLog := by
              rw [fcfs_departure_dropLog]
              exact hdrop
            obtain ⟨z, hz, hcz⟩ := ih (corr_departure cfg hp h1) hdrop2
            refine ⟨z, ?_, ?_⟩
            · rw [WFQ.w_runFuel_departure cfg ora n sW t p2 q2 hqW hT]
              exact hz
            · rw [FCFS.runFuel_departure cfg ora n sF t p q hqF hT]
              exact hcz

theorem EvR.refl (e : Event) : EvR e e := by
  rcases e with ⟨t, j⟩ | ⟨t, p⟩
  · exact ⟨rfl, rfl⟩
  · exact ⟨rfl, rfl⟩

theorem corr_init (cfg : Config) (src : Source) (hsrc : cfg.sources = [src])
    (hid : src.id = 0) : Corr (FCFS.init cfg) (WFQ.init cfg) := by
  have hq : (WFQ.init cfg).eventQueue =
      scheduleEvent cfg.simulationTime (.arrival src.startTime src.id) [] := by
    show cfg.sources.foldl _ [] = _
    rw [hsrc]
    rfl
  have hqF : (FCFS.init cfg).eventQueue =
      scheduleEvent cfg.simulationTime (.arrival src.startTime src.id) [] := by
    show cfg.sources.foldl _ [] = _
    rw [hsrc]
    rfl
  refine ⟨rfl, rfl, rfl, rfl, rfl, ?_, List.Forall₂.nil, rfl, ?_, ?_, ?_, ?_, le_refl _⟩
  · rw [hqF, hq]
    exact List.forall₂_same.mpr fun e _ => EvR.refl e
  · intro e he
    rw [hq] at he
    unfold scheduleEvent at he
    split at he
    · rcases mem_insertSorted.mp he with rfl | he
      · exact hid
      · exact (List.not_mem_nil e he).elim
    · exact (List.not_mem_nil e he).elim
  · intro p hp
    exact (List.not_mem_nil p hp).elim
  · intro p hp
    exact (List.not_mem_nil p hp).elim
  · intro p hp
    exact (List.not_mem_nil p hp).elim

/-- C7 (amended): with a single source of positive weight and positive packet
sizes, and provided the FCFS run drops no packet, the WFQ simulator run on the
same draw sequence completes and produces the identical departure log
(time, packet id per departure) and identical per-source statistics.  The
unamended claim fails when packets are dropped, because FCFS tail-drops the
arriving packet while WFQ drops the buffered minimum-VFT packet. -/
theorem c7_single_source_amended (cfg : Config) (src : Source) (ora : Oracle) (n : Nat)
    (hsrc : cfg.sources = [src]) (hid : src.id = 0) (hw : 0 < src.weight)
    (hL : ∀ k, 0 < (ora k).2)
    (hnodrop : (FCFS.runFuel cfg ora n (FCFS.init cfg)).dropLog = []) :
    ∃ sW, WFQ.runFuel cfg ora n (WFQ.init cfg) = some sW ∧
      (FCFS.runFuel cfg ora n (FCFS.init cfg)).depLog = sW.depLog ∧
      (FCFS.runFuel cfg ora n (FCFS.init cfg)).stats = sW.stats := by
  obtain ⟨sW, hW, hc⟩ := corr_runFuel cfg src ora hsrc hw hL n
    (corr_init cfg src hsrc hid) (by rw [hnodrop]; rfl)
  exact ⟨sW, hW, hc.deplog, hc.stats⟩

def c7wSrc : Source := ⟨0, 1, 0, 0, 1, 0, 2⟩

def c7wCfg : Config := ⟨1, 50, 1, 2, [c7wSrc]⟩

def c7wOra : Oracle := fun _ => (1, 1)

theorem c7_single_source_amended_witness :
    c7wCfg.sources = [c7wSrc] ∧ c7wSrc.id = 0 ∧ (0 : Rat) < c7wSrc.weight ∧
    (∀ k, (0 : Int) < (c7wOra k).2) ∧
    (FCFS.runFuel c7wCfg c7wOra 6 (FCFS.init c7wCfg)).dropLog = [] ∧
    ∃ sW, WFQ.runFuel c7wCfg c7wOra 6 (WFQ.init c7wCfg) = some sW ∧
      (FCFS.runFuel c7wCfg c7wOra 6 (FCFS.init c7wCfg)).depLog = sW.depLog ∧
      (FCFS.runFuel c7wCfg c7wOra 6 (FCFS.init c7wCfg)).stats = sW.stats :=
  ⟨rfl, rfl, by decide, fun _ => (by decide : (0 : Int) < 1), by decide,
    c7_single_source_amended c7wCfg c7wSrc c7wOra 6 rfl rfl
      (by decide) (fun _ => (by decide : (0 : Int) < 1)) (by decide)⟩

def c7cCfg : Config := ⟨1, 50, 1, 1, [⟨0, 1, 0, 0, 1, 0, 50⟩]⟩

def c7cOra : Oracle :=
  fun n => if n = 0 then (1, 10) else if n = 1 then (1, 2) else (1000, 3)

def wfqDepLogOf (o : Option WFQ.State) : List (Rat × Nat) :=
  match o with
  | none => []
  | some s => s.depLog

/-- Counterexample to C7 as stated: a single-source configuration (T = 50,
C = 1, B = 1) with packet sizes 10, 2, 3 arriving at times 0, 1, 2.  The
third arrival finds the buffer full: FCFS tail-drops packet 3 and departs
packets 1, 2 at times 10, 12, while WFQ drops buffered packet 2 and departs
packets 1, 3 at times 10, 13 — the departure logs differ. -/
theorem c7_counterexample :
    c7cCfg.numSources = 1 ∧ c7cCfg.sources.length = 1 ∧
    (WFQ.runFuel c7cCfg c7cOra 8 (WFQ.init c7cCfg)).isSome = true ∧
    (FCFS.runFuel c7cCfg c7cOra 8 (FCFS.init c7cCfg)).depLog ≠
      wfqDepLogOf (WFQ.runFuel c7cCfg c7cOra 8 (WFQ.init c7cCfg)) := by
  decide
